import Mathlib

/-!
Shallow embedding of the IoT-Manufacturing-Tech retrieval-augmented answer
engine: `backend/chat_query.py` (URL/anchor sanitizers, retrieval, answer
orchestration), `scripts/chunker.py` (paragraph chunker) and
`scripts/embed_chunks.py` (batch embedding).  Python strings are modelled as
`List Char` with `String` wrappers at the API boundary, so that every
definition is executable by kernel reduction.
-/

namespace ChatQuery

/-- The ASCII characters Python `str.strip()` and the regex class `\s` treat
as whitespace: space, tab, newline, carriage return, vertical tab, form feed. -/
def pyIsSpace (c : Char) : Bool :=
  c = ' ' || c = '\t' || c = '\n' || c = '\r' || c = '\x0b' || c = '\x0c'

/-- Python `str.strip()` on a character list: drop leading and trailing
whitespace. -/
def pyStripL (s : List Char) : List Char :=
  ((s.dropWhile pyIsSpace).reverse.dropWhile pyIsSpace).reverse

/-- Python `str.lower()` restricted to the case folding relevant here. -/
def lowerL (s : List Char) : List Char := s.map Char.toLower

/-- Boolean test that `p` is an initial segment of the second list. -/
def startsWith : List Char → List Char → Bool
  | [], _ => true
  | _ :: _, [] => false
  | p :: ps, c :: cs => p = c && startsWith ps cs

/-- Python substring containment (`pat in s` on strings). -/
def containsL (pat : List Char) : List Char → Bool
  | [] => pat.isEmpty
  | c :: rest => startsWith pat (c :: rest) || containsL pat rest

/-- Python `re.sub(r"T.*$", "", s)` for a trigger character `T` (`#` or `?`
in `_sanitize_url`): without `re.S`, `.` does not match a newline, and `$`
matches at the end of the string or just before a trailing newline, so the
substitution deletes everything from the first occurrence of `T` in the final
line of `s` to the end of that line, and leaves `s` unchanged when the final
line has no `T`. -/
def pyDropTail (trig : Char) (s : List Char) : List Char :=
  let hasNL : Bool := s.getLast? = some '\n'
  let core := if hasNL then s.dropLast else s
  let lastLine := (core.reverse.takeWhile (fun c => c ≠ '\n')).reverse
  let pre := (core.reverse.dropWhile (fun c => c ≠ '\n')).reverse
  if lastLine.contains trig then
    pre ++ lastLine.takeWhile (fun c => c ≠ trig) ++ (if hasNL then ['\n'] else [])
  else s

/-- `HOMEPAGE_URL` from backend/chat_query.py. -/
def HOMEPAGE_URL : String := "https://iotmanufacturingtech.com"

/-- `CONTACT_US_URL` from backend/chat_query.py. -/
def CONTACT_US_URL : String := "https://iotmanufacturingtech.com/contact-us/"

/-- The trusted domain whose substring presence `_sanitize_url` requires. -/
def trustedDomain : List Char := "iotmanufacturingtech.com".data

/-- `re.match(r"^(javascript|data|vbscript|mailto):", url, re.I)`:
case-insensitive prefix test for the denied schemes. -/
def deniedScheme (s : List Char) : Bool :=
  startsWith "javascript:".data (lowerL s) || startsWith "data:".data (lowerL s) ||
    startsWith "vbscript:".data (lowerL s) || startsWith "mailto:".data (lowerL s)

/-- `_sanitize_url` from backend/chat_query.py on character lists.  The
Python guard `not isinstance(url, str) or not url` collapses, for string
inputs, to the emptiness test; non-string inputs are outside this model. -/
def sanitizeUrlL (url : List Char) : List Char :=
  if url.isEmpty then HOMEPAGE_URL.data
  else
    let u := pyStripL url
    if deniedScheme u then HOMEPAGE_URL.data
    else if !(containsL trustedDomain u) then HOMEPAGE_URL.data
    else pyDropTail '?' (pyDropTail '#' u)

/-- `_sanitize_url` at the `String` level. -/
def sanitize_url (url : String) : String := ⟨sanitizeUrlL url.data⟩

/-! ## Chunker: `split_text` from scripts/chunker.py -/

/-- Python `txt.split("\n")`: split at every newline, keeping empty pieces. -/
def splitNL : List Char → List (List Char)
  | [] => [[]]
  | c :: rest =>
    if c = '\n' then [] :: splitNL rest
    else
      match splitNL rest with
      | [] => [[c]]
      | p :: ps => (c :: p) :: ps

/-- `paras = [p.strip() for p in txt.split("\n") if p.strip()]`: the stripped
paragraphs of the input, with empty and whitespace-only paragraphs dropped. -/
def parasOf (txt : List Char) : List (List Char) :=
  ((splitNL txt).map pyStripL).filter (fun p => !p.isEmpty)

/-- The accumulation loop of `split_text`: add each paragraph's length to
`size`, append the paragraph to `cur`, flush the current group once
`size >= max_len`, and emit a final partial group if nonempty. -/
def chunkGroups (maxLen : Nat) : List (List Char) → List (List Char) → Nat → List (List (List Char))
  | [], cur, _ => if cur.isEmpty then [] else [cur]
  | p :: ps, cur, size =>
    let size' := size + p.length
    let cur' := cur ++ [p]
    if maxLen ≤ size' then cur' :: chunkGroups maxLen ps [] 0
    else chunkGroups maxLen ps cur' size'

/-- Python `sep.join(parts)`. -/
def joinSep (sep : List Char) : List (List Char) → List Char
  | [] => []
  | [x] => x
  | x :: y :: rest => x ++ sep ++ joinSep sep (y :: rest)

/-- `split_text` from scripts/chunker.py; the source's default is
`max_len=1500`. -/
def split_text (txt : String) (maxLen : Nat) : List String :=
  (chunkGroups maxLen (parasOf txt.data) [] 0).map (fun g => ⟨joinSep "\n\n".data g⟩)

/-! ## Anchor sanitizer: `_sanitize_anchor_html` from backend/chat_query.py

The pattern `<a\s+href="(?P<href>[^"]+)"[^>]*>(?P<text>.*?)</a>` with
`re.I | re.S` is deterministic: each greedy complemented class is cut off by
its required delimiter, so the matcher below is an exact model of the regex
engine behaviour (leftmost match, scan forward on failure). -/

/-- The double-quote character. -/
def dq : Char := Char.ofNat 34

/-- Split at the first occurrence of `c`: the part strictly before it and
the remainder strictly after it.  Models the regex elements `[^"]+"` and
`[^>]*>` (a greedy complemented class consumes exactly up to the first
delimiter, which is then required). -/
def splitAtChar (c : Char) : List Char → Option (List Char × List Char)
  | [] => none
  | x :: xs =>
    if x = c then some ([], xs)
    else (splitAtChar c xs).map (fun p => (x :: p.1, p.2))

/-- Whether the list starts with the closing tag `</a>` (case-insensitive
letter, per `re.I`). -/
def isCloseAt (s : List Char) : Bool :=
  match s with
  | a :: b :: c :: d :: _ => a = '<' && b = '/' && c.toLower = 'a' && d = '>'
  | _ => false

/-- The lazy `(?P<text>.*?)</a>` tail: the text before the first closing tag
and the remainder after that tag. -/
def findClose : List Char → Option (List Char × List Char)
  | [] => none
  | x :: xs =>
    if isCloseAt (x :: xs) then some ([], (x :: xs).drop 4)
    else (findClose xs).map (fun p => (x :: p.1, p.2))

/-- Whether a closing tag `</a>` occurs anywhere in the list. -/
def hasClose : List Char → Bool
  | [] => false
  | x :: xs => isCloseAt (x :: xs) || hasClose xs

/-- The pattern stage after the literal `href="`: the nonempty href group up
to the closing quote, then `[^>]*>`, then the lazy text up to `</a>`. -/
def matchQuote (rest : List Char) : Option (List Char × List Char × List Char) :=
  match splitAtChar dq rest with
  | none => none
  | some (href, r2) =>
    if href.isEmpty then none
    else
      match splitAtChar '>' r2 with
      | none => none
      | some (_, r3) =>
        match findClose r3 with
        | none => none
        | some (text, r4) => some (href, text, r4)

/-- The pattern stage for the literal `href="` (letters case-insensitive). -/
def matchHref : List Char → Option (List Char × List Char × List Char)
  | c1 :: c2 :: c3 :: c4 :: c5 :: c6 :: rest =>
    if c1.toLower = 'h' ∧ c2.toLower = 'r' ∧ c3.toLower = 'e' ∧ c4.toLower = 'f' ∧
        c5 = '=' ∧ c6 = dq then
      matchQuote rest
    else none
  | _ => none

/-- The pattern stage after `<a`: `\s+` (at least one whitespace character)
followed by `href="`. -/
def matchAfterA (r : List Char) : Option (List Char × List Char × List Char) :=
  if (r.takeWhile pyIsSpace).isEmpty then none
  else matchHref (r.dropWhile pyIsSpace)

/-- One attempt of the anchor pattern at the head of the list: on success,
the href group, the text group and the remainder after the match. -/
def matchAnchorAt : List Char → Option (List Char × List Char × List Char)
  | a :: b :: r => if a = '<' ∧ b.toLower = 'a' then matchAfterA r else none
  | _ => none

/-- The fixed attribute block of the replacement string, between the closing
quote of the rewritten href and the `>` of the tag. -/
def attChars : List Char := " target=\"_blank\" rel=\"noopener noreferrer\"".data

/-- The replacement emitted by `repl`: the f-string
`<a href="..." target="_blank" rel="noopener noreferrer">...</a>` holding the
sanitized href and the matched text (the caller passes the sanitized href). -/
def ablock (safe text : List Char) : List Char :=
  '<' :: 'a' :: ' ' :: 'h' :: 'r' :: 'e' :: 'f' :: '=' :: dq ::
    (safe ++ dq :: (attChars ++ '>' :: (text ++ '<' :: '/' :: 'a' :: '>' :: [])))

/-- Fuelled scanner for `pattern.sub(repl, html)`: at each position try the
anchor pattern; on a match emit the rewritten anchor and continue after the
match, otherwise keep one character and move on.  Every step consumes at
least one character, so `fuel = s.length` always suffices. -/
def subAnchorsF : Nat → List Char → List Char
  | 0, s => s
  | fuel + 1, s =>
    match matchAnchorAt s with
    | some (href, text, rest) => ablock (sanitizeUrlL href) text ++ subAnchorsF fuel rest
    | none =>
      match s with
      | [] => []
      | c :: s' => c :: subAnchorsF fuel s'

/-- `pattern.sub(repl, html)` over character lists. -/
def subAnchors (s : List Char) : List Char := subAnchorsF s.length s

/-- The href groups matched during the scan, in order. -/
def scanHrefsF : Nat → List Char → List (List Char)
  | 0, _ => []
  | fuel + 1, s =>
    match matchAnchorAt s with
    | some (href, _, rest) => href :: scanHrefsF fuel rest
    | none =>
      match s with
      | [] => []
      | _ :: s' => scanHrefsF fuel s'

/-- The href groups the scan of `s` rewrites, in order. -/
def scanHrefs (s : List Char) : List (List Char) := scanHrefsF s.length s

/-- `_sanitize_anchor_html` from backend/chat_query.py: falsy (empty) input
is returned unchanged, otherwise every match of the anchor pattern is
substituted. -/
def sanitize_anchor_html (html : String) : String :=
  if html.data.isEmpty then html else ⟨subAnchors html.data⟩

/-- The structure every suffix that starts a match has: a leading `<`, a
double quote, a `>` after it, and a closing tag after that. -/
def GoodTail (X : List Char) : Prop :=
  (∃ Xr, X = '<' :: Xr) ∧
    ∃ A B C D : List Char, X = A ++ dq :: B ∧ B = C ++ '>' :: D ∧ hasClose D = true

/-- A segment of a scan: an unmatched character passed through verbatim, or a
matched anchor region rewritten to the forced replacement. -/
inductive Seg : Type where
  | lit : Char → Seg
  | rew : List Char → List Char → List Char → Seg

/-- The source characters a segment covers. -/
def segSrc : Seg → List Char
  | .lit c => [c]
  | .rew src _ _ => src

/-- The output characters a segment produces. -/
def segOut : Seg → List Char
  | .lit c => [c]
  | .rew _ href text => ablock (sanitizeUrlL href) text

/-- A rewritten segment's source is an exact anchor-pattern match with the
recorded href and text, whatever follows it; literal segments carry no
obligation. -/
def segMatches : Seg → Prop
  | .lit _ => True
  | .rew src href text => ∀ m, matchAnchorAt (src ++ m) = some (href, text, m)

/-- The apostrophe (single-quote) character. -/
def sq : Char := Char.ofNat 39

/-! ## Embedder: `embed_many` from scripts/embed_chunks.py and `embed_query`
from backend/chat_query.py -/

/-- Squared L2 norm of a rational vector. -/
def sumSq (v : List ℚ) : ℚ := (v.map (fun x => x * x)).sum

/-- The batch slicing of `embed_many`'s loop
`for i in range(0, len(strs), batch): strs[i:i+batch]`. -/
def batches (batch : Nat) : Nat → List String → List (List String)
  | 0, _ => []
  | _, [] => []
  | fuel + 1, strs => strs.take batch :: batches batch fuel (strs.drop batch)

/-- `embed_many` from scripts/embed_chunks.py (source default `batch=32`):
slice the inputs into batches, call the embedding service per batch, and
stack the returned rows.  `svc` is the external service together with the
response-shape adapter (both the single-`embedding` dict shape and the
`data`-list shape are normalized by the source into one row per input). -/
def embed_many (svc : List String → List (List ℚ)) (strs : List String) (batch : Nat) :
    List (List ℚ) :=
  ((batches batch strs.length strs).map svc).flatten

/-- `faiss.normalize_L2` on a single row over the reals: divide each entry by
the L2 norm (faiss skips rows with zero norm). -/
noncomputable def normalizeL2 (v : List ℝ) : List ℝ :=
  if (v.map (fun x => x * x)).sum = 0 then v
  else v.map (fun x => x / Real.sqrt ((v.map (fun x => x * x)).sum))

/-- `embed_query` from backend/chat_query.py over the reals: the service's
response vector (either response shape, already normalized into a plain
vector by the source's adapter branch) is L2-normalized in place via
`faiss.normalize_L2` on its 1×d reshape, and returned. -/
noncomputable def embed_query (v : List ℝ) : List ℝ := normalizeL2 v

/-- L2 norm of a real vector. -/
noncomputable def l2norm (v : List ℝ) : ℝ := Real.sqrt ((v.map (fun x => x * x)).sum)

/-! ## Retriever: `retrieve` from backend/chat_query.py -/

/-- A metadata row (`{id, url, title, text}`; the fields the code reads). -/
structure MetaRec where
  url : String
  title : String
  text : String
deriving DecidableEq

/-- `retrieve` from backend/chat_query.py with the collaborators abstracted:
`searchRes` is the (score, row index) result `index.search(q, k)` returns for
the embedded query — the code unpacks `_, I` and iterates over `I[0]`,
discarding the scores — and `meta` is the metadata list.  The loop appends
`meta[i]`, in search order, for exactly the hits with `0 <= i < len(meta)`,
silently dropping every other index. -/
def retrieve (searchRes : List (ℚ × Int)) (meta : List MetaRec) : List MetaRec :=
  (searchRes.map Prod.snd).filterMap (fun i =>
    if 0 ≤ i ∧ i < (meta.length : Int) then meta[i.toNat]? else none)

/-- `retrieve` keeping the (discarded) faiss scores alongside the records,
used to state the ordering property. -/
def retrieveWithScores (searchRes : List (ℚ × Int)) (meta : List MetaRec) :
    List (ℚ × MetaRec) :=
  searchRes.filterMap (fun p =>
    if 0 ≤ p.2 ∧ p.2 < (meta.length : Int) then
      (meta[p.2.toNat]?).map (fun r => (p.1, r)) else none)

/-! ## AnswerEngine: `ask_gemini` from backend/chat_query.py -/

/-- Python `str.lower()` at the `String` level (ASCII folding, as used on
the query). -/
def strLower (s : String) : String := ⟨s.data.map Char.toLower⟩

/-- Python `str.strip()` at the `String` level. -/
def pyStrip (s : String) : String := ⟨pyStripL s.data⟩

/-- Python `sep.join(parts)` at the `String` level. -/
def joinStr (sep : String) (parts : List String) : String :=
  ⟨joinSep sep.data (parts.map String.data)⟩

/-- A generation-service response: the optional `text` attribute, and the
candidate list, each candidate either lacking content/parts (`none`) or
carrying its parts' optional `text` attributes. -/
structure GenResp where
  text : Option String
  candidates : List (Option (List (Option String)))

/-- The static greeting help message (chat_query.py lines 147–154). -/
def greetingMsg : String :=
  "Hi there! 👋 I’m here to help with IoT, sensors, asset tracking, and SOP questions.\n\n" ++
    "You can ask things like:\n" ++
    "1️⃣ Which IoT devices fit predictive maintenance?\n" ++
    "2️⃣ How do I set up a BLE gateway?\n" ++
    "3️⃣ Can you help create a system diagram or BOM?\n" ++
    "4️⃣ What are real-world examples of smart factory deployments?"

/-- The `mapped_prompts` menu-shortcut dictionary (lines 157–163). -/
def mappedPrompts (normalized : String) : Option String :=
  if normalized = "1" then
    some "Which IoT devices are suitable for predictive maintenance or asset tracking?"
  else if normalized = "2" then
    some "Which platforms or protocols are supported and how do I set up a BLE gateway?"
  else if normalized = "3" then
    some "Help me design a system diagram and bill of materials (BOM) for an IoT solution."
  else if normalized = "4" then
    some "How are IoT Manufacturing Tech solutions used in smart factories and automation?"
  else if normalized = "5" then
    some "I have another IoT or asset tracking question. Please assist."
  else none

/-- The topic-boundary fallback for blank context (lines 179–184). -/
def emptyCtxMsg : String :=
  "I’m here to help with IoT and asset-tracking topics like RFID, BLE gateways, " ++
    "smart-factory use cases, and related setups. Could you try rephrasing or ask about a " ++
    "specific product or scenario? You can also visit " ++
    "<a href=\"" ++ CONTACT_US_URL ++
    "\" target=\"_blank\" rel=\"noopener noreferrer\">Contact Us</a> for direct help."

/-- The empty-response fallback (lines 224–227). -/
def noAnswerMsg : String :=
  "I couldn’t find a specific answer in our knowledge base. " ++
    "Please try another query or reach us via <a href=\"" ++ CONTACT_US_URL ++
    "\" target=\"_blank\" rel=\"noopener noreferrer\">Contact Us</a>."

/-- The exception-path apology (lines 235–238). -/
def apologyMsg : String :=
  "Sorry — I hit a snag processing that. Please try again in a moment, or visit " ++
    "<a href=\"" ++ CONTACT_US_URL ++
    "\" target=\"_blank\" rel=\"noopener noreferrer\">Contact Us</a>."

/-- `_format_context`: one block per record with title header, sanitized URL
header, a blank line and the stripped text; blocks joined by the visible
separator. -/
def format_context (retrieved : List MetaRec) : String :=
  joinStr "\n\n---\n\n" (retrieved.map (fun r =>
    "TITLE: " ++ pyStrip r.title ++ "\nURL: " ++ sanitize_url r.url ++ "\n\n" ++ pyStrip r.text))

/-- The loop of `_allowed_links`: de-duplicated sanitized URLs in first-seen
order, returning the `seen` set alongside. -/
def allowedLoop : List MetaRec → List String → List String → List String × List String
  | [], seen, urls => (seen, urls)
  | r :: rest, seen, urls =>
    let u := sanitize_url r.url
    if u ∈ seen then allowedLoop rest seen urls
    else allowedLoop rest (u :: seen) (urls ++ [u])

/-- `_allowed_links`: the de-duplicated sanitized URLs, with the homepage and
contact URLs appended when not already seen. -/
def allowed_links (retrieved : List MetaRec) : List String :=
  let p := allowedLoop retrieved [] []
  let urls2 := if HOMEPAGE_URL ∈ p.1 then p.2 else p.2 ++ [HOMEPAGE_URL]
  if CONTACT_US_URL ∈ p.1 then urls2 else urls2 ++ [CONTACT_US_URL]

/-- The prompt f-string (lines 186–205) with its three interpolations. -/
def mkPrompt (allowedList context query : String) : String :=
  "\nYou are a helpful assistant for IoT Manufacturing Tech. Answer clearly and naturally.\n" ++
    "Do not use filler phrases like “Of course” or “Based on the context”.\n" ++
    "Use ONLY the information in the context and the **Allowed Links** list below.\n" ++
    "Never invent URLs. If a precise page isn’t listed, link to the homepage or Contact Us.\n\n" ++
    "Format links as HTML anchors exactly like:\n" ++
    "<a href=\"URL\" target=\"_blank\">Link text</a>\n" ++
    "(Do NOT escape the HTML.)\n\n" ++
    "Allowed Links:\n" ++ allowedList ++ "\n\n" ++
    "Context:\n" ++ context ++ "\n\n" ++
    "User question: " ++ query ++ "\n\n" ++
    "Your answer:\n"

/-- The candidate-stitching branch of response validation (lines 213–221):
collect the `text` of every part of every candidate that has content and
parts, join with newlines, and strip. -/
def candText (cands : List (Option (List (Option String)))) : String :=
  if cands.isEmpty then ""
  else pyStrip (joinStr "\n" ((cands.filterMap id).flatten.filterMap id))

/-- Response validation (lines 210–221): prefer a nonempty stripped
`resp.text`; otherwise stitch the candidates' parts. -/
def extractText (resp : GenResp) : String :=
  match resp.text with
  | some t => if pyStrip t = "" then candText resp.candidates else pyStrip t
  | none => candText resp.candidates

/-- The input-shape affordance (lines 169–170): raw passage strings are
wrapped into minimal records with the homepage URL and empty title. -/
def wrapChunks : List MetaRec ⊕ List String → List MetaRec
  | .inl rs => rs
  | .inr ts => ts.map (fun t => ⟨HOMEPAGE_URL, "", t⟩)

/-- The body of `ask_gemini` after greeting/shortcut handling (lines
168–238): build the context and allowed-link list, return the topic-boundary
fallback on blank context, and otherwise run the generation call inside the
try block — an exception yields the static apology, an empty extracted text
the no-answer message, and any other text is re-sanitized and returned. -/
def askCore (gen : String → Except String GenResp) (query : String)
    (chunks : List MetaRec ⊕ List String) : String :=
  let rcs := wrapChunks chunks
  let context := format_context rcs
  let allowedList := joinStr "\n" ((allowed_links rcs).map (fun u => "- " ++ u))
  if pyStrip context = "" then emptyCtxMsg
  else
    match gen (mkPrompt allowedList context query) with
    | .error _ => apologyMsg
    | .ok resp =>
      let text := extractText resp
      if text = "" then noAnswerMsg
      else sanitize_anchor_html text

/-- `ask_gemini` from backend/chat_query.py.  The generation client is the
collaborator `gen` (`.error` models a raised exception, caught by the try
block inside `askCore`); the retrieval pipeline invoked by the menu
shortcuts (line 166, outside the try block) is `retr`, whose `.error`
propagates. -/
def ask_gemini (gen : String → Except String GenResp)
    (retr : String → Except String (List MetaRec))
    (query : String) (chunks : List MetaRec ⊕ List String) : Except String String :=
  let normalized := strLower (pyStrip query)
  if normalized = "hi" ∨ normalized = "hello" ∨ normalized = "hey" ∨ normalized = "halo" then
    Except.ok greetingMsg
  else
    match mappedPrompts normalized with
    | some q2 => (retr q2).map (fun rs => askCore gen q2 (.inl rs))
    | none => Except.ok (askCore gen query chunks)

theorem sanitize_url_test1 : sanitize_url "javascript:alert(1)" = HOMEPAGE_URL := by decide

theorem sanitize_url_test2 :
    sanitize_url "https://iotmanufacturingtech.com/products/?utm=1#x" =
      "https://iotmanufacturingtech.com/products/" := by decide

/-- C1 counterexample: the code checks the trusted domain as a substring of
the whole URL, not of the host.  `"https://evil.com/iotmanufacturingtech.com"`
has host `evil.com`, which does not contain the trusted domain, yet
`_sanitize_url` accepts it unchanged instead of falling back to the homepage. -/
theorem sanitize_url_host_counterexample :
    sanitize_url "https://evil.com/iotmanufacturingtech.com" =
        "https://evil.com/iotmanufacturingtech.com" ∧
      sanitize_url "https://evil.com/iotmanufacturingtech.com" ≠ HOMEPAGE_URL := by
  constructor
  · decide
  · decide

/-- C1 (amended): `_sanitize_url` returns the homepage for empty input, for
URLs whose stripped form starts with a denied scheme (case-insensitively),
and for URLs whose stripped form does not contain `iotmanufacturingtech.com`
as a substring anywhere in the URL (not: in the host); every other URL is
returned stripped, with the fragment and then the query-string tail removed;
and the four concrete test vectors of the spec hold. -/
theorem sanitize_url_spec :
    (sanitize_url "" = HOMEPAGE_URL) ∧
      (∀ url : String, deniedScheme (pyStripL url.data) = true →
        sanitize_url url = HOMEPAGE_URL) ∧
      (∀ url : String, containsL trustedDomain (pyStripL url.data) = false →
        sanitize_url url = HOMEPAGE_URL) ∧
      (∀ url : String, url ≠ "" → deniedScheme (pyStripL url.data) = false →
        containsL trustedDomain (pyStripL url.data) = true →
        sanitize_url url = ⟨pyDropTail '?' (pyDropTail '#' (pyStripL url.data))⟩) ∧
      (sanitize_url "javascript:alert(1)" = HOMEPAGE_URL) ∧
      (sanitize_url "https://iotmanufacturingtech.com/products/?utm=1#x" =
        "https://iotmanufacturingtech.com/products/") ∧
      (sanitize_url "https://evil.com" = HOMEPAGE_URL) ∧
      (sanitize_url "" = HOMEPAGE_URL) := by
  refine ⟨by decide, ?_, ?_, ?_, by decide, by decide, by decide, by decide⟩
  · intro url h
    by_cases he : url.data.isEmpty
    · simp [sanitize_url, sanitizeUrlL, he]
    · simp [sanitize_url, sanitizeUrlL, he, h]
  · intro url h
    by_cases he : url.data.isEmpty
    · simp [sanitize_url, sanitizeUrlL, he]
    · by_cases hd : deniedScheme (pyStripL url.data)
      · simp [sanitize_url, sanitizeUrlL, he, hd]
      · simp [sanitize_url, sanitizeUrlL, he, hd, h]
  · intro url hne hd hc
    have he : url.data.isEmpty = false := by
      cases hu : url.data with
      | nil => exact absurd (by cases url with | _ d => simpa using congrArg String.mk hu) hne
      | cons c cs => simp
    simp [sanitize_url, sanitizeUrlL, he, hd, hc]

/-- C1 witness: the amended characterization applied at a concrete accepted
URL with a fragment. -/
theorem sanitize_url_spec_witness :
    sanitize_url "https://iotmanufacturingtech.com/a#frag" =
      "https://iotmanufacturingtech.com/a" := by
  have h := sanitize_url_spec.2.2.2.1 "https://iotmanufacturingtech.com/a#frag"
    (by decide) (by decide) (by decide)
  rw [h]
  decide

theorem chunkGroups_join (maxLen : Nat) :
    ∀ (ps cur : List (List Char)) (size : Nat),
      (chunkGroups maxLen ps cur size).flatten = cur ++ ps := by
  intro ps
  induction ps with
  | nil =>
    intro cur size
    by_cases h : cur.isEmpty
    · simp [chunkGroups, h, List.isEmpty_iff.mp h]
    · simp [chunkGroups, h]
  | cons p ps ih =>
    intro cur size
    by_cases h : maxLen ≤ size + p.length
    · simp [chunkGroups, h, ih]
    · simp [chunkGroups, h, ih]

theorem chunkGroups_ne_nil (maxLen : Nat) :
    ∀ (ps cur : List (List Char)) (size : Nat) (g : List (List Char)),
      g ∈ chunkGroups maxLen ps cur size → g ≠ [] := by
  intro ps
  induction ps with
  | nil =>
    intro cur size g hg
    by_cases h : cur.isEmpty
    · simp [chunkGroups, h] at hg
    · simp [chunkGroups, h] at hg
      subst hg
      simpa using h
  | cons p ps ih =>
    intro cur size g hg
    by_cases h : maxLen ≤ size + p.length
    · simp [chunkGroups, h] at hg
      rcases hg with hg | hg
      · simp [hg]
      · exact ih [] 0 g hg
    · simp [chunkGroups, h] at hg
      exact ih (cur ++ [p]) (size + p.length) g hg

theorem mk_ne_empty (l : List Char) (h : l ≠ []) : (⟨l⟩ : String) ≠ "" := by
  intro h2
  exact h (congrArg String.data h2)

theorem parasOf_nonempty (txt : List Char) : ∀ p ∈ parasOf txt, p ≠ [] := by
  intro p hp
  have h := List.of_mem_filter hp
  simpa using h

/-- C6: the `split_text` groups flatten back to exactly the non-empty
stripped paragraphs of the input in order; the emitted passages are the
`"\n\n"`-joins of those groups; no emitted passage is the empty string; and
empty input yields empty output. -/
theorem split_text_reconstruction :
    ∀ (txt : String) (maxLen : Nat),
      ((chunkGroups maxLen (parasOf txt.data) [] 0).flatten = parasOf txt.data) ∧
      (split_text txt maxLen =
        (chunkGroups maxLen (parasOf txt.data) [] 0).map (fun g => ⟨joinSep "\n\n".data g⟩)) ∧
      (∀ s ∈ split_text txt maxLen, s ≠ "") ∧
      (split_text "" maxLen = []) := by
  intro txt maxLen
  refine ⟨by simpa using chunkGroups_join maxLen (parasOf txt.data) [] 0, rfl, ?_, rfl⟩
  intro s hs
  simp only [split_text, List.mem_map] at hs
  obtain ⟨g, hg, hs⟩ := hs
  have hgne := chunkGroups_ne_nil maxLen (parasOf txt.data) [] 0 g hg
  obtain ⟨x, rest, rfl⟩ := List.exists_cons_of_ne_nil hgne
  have hx : x ∈ parasOf txt.data := by
    have hxg : x ∈ (chunkGroups maxLen (parasOf txt.data) [] 0).flatten :=
      List.mem_flatten.mpr ⟨x :: rest, hg, by simp⟩
    rwa [chunkGroups_join, List.nil_append] at hxg
  have hxne : x ≠ [] := parasOf_nonempty txt.data x hx
  subst hs
  cases rest with
  | nil => exact mk_ne_empty _ (by simpa [joinSep] using hxne)
  | cons y rest =>
    refine mk_ne_empty _ ?_
    simp [joinSep]

/-- C6 witness: a concrete two-paragraph input reconstructs and yields a
nonempty passage. -/
theorem split_text_reconstruction_witness : ("a\n\nb" : String) ≠ "" :=
  (split_text_reconstruction "a\nb" 1500).2.2.1 "a\n\nb" (by decide)

theorem mem_dropLast_cons {α : Type} {g a : α} {l : List α} (h : g ∈ (a :: l).dropLast) :
    g = a ∨ g ∈ l.dropLast := by
  cases l with
  | nil => simp [List.dropLast] at h
  | cons b l' =>
    have h' : g ∈ a :: (b :: l').dropLast := h
    rcases List.mem_cons.mp h' with h'' | h''
    · exact Or.inl h''
    · exact Or.inr h''

theorem chunkGroups_threshold (maxLen : Nat) :
    ∀ (ps cur : List (List Char)) (size : Nat),
      size = (cur.map List.length).sum →
      ∀ g ∈ (chunkGroups maxLen ps cur size).dropLast,
        maxLen ≤ (g.map List.length).sum := by
  intro ps
  induction ps with
  | nil =>
    intro cur size hsz g hg
    by_cases h : cur.isEmpty <;> simp [chunkGroups, h, List.dropLast] at hg
  | cons p ps ih =>
    intro cur size hsz g hg
    by_cases h : maxLen ≤ size + p.length
    · simp only [chunkGroups, h, if_pos] at hg
      rcases mem_dropLast_cons hg with rfl | hg'
      · calc maxLen ≤ size + p.length := h
          _ = (((cur ++ [p]).map List.length)).sum := by simp [hsz]
      · exact ih [] 0 rfl g hg'
    · simp only [chunkGroups, h, if_neg, if_false] at hg
      exact ih (cur ++ [p]) (size + p.length) (by simp [hsz]) g hg

/-- C9: every group flushed by `split_text` except possibly the last has
total paragraph character length (separators excluded) at least `max_len`;
the emitted passages are exactly the joins of these groups. -/
theorem split_text_threshold :
    ∀ (txt : String) (maxLen : Nat),
      (split_text txt maxLen =
        (chunkGroups maxLen (parasOf txt.data) [] 0).map (fun g => ⟨joinSep "\n\n".data g⟩)) ∧
      ∀ g ∈ (chunkGroups maxLen (parasOf txt.data) [] 0).dropLast,
        maxLen ≤ (g.map List.length).sum :=
  fun txt maxLen =>
    ⟨rfl, fun g hg => chunkGroups_threshold maxLen (parasOf txt.data) [] 0 rfl g hg⟩

/-- C9 witness: with threshold 5, the input `"abcdef\nxy"` flushes the group
`["abcdef"]` of total length 6 ≥ 5 before the final partial group. -/
theorem split_text_threshold_witness : 5 ≤ ((["abcdef".data].map List.length)).sum :=
  (split_text_threshold "abcdef\nxy" 5).2 ["abcdef".data] (by decide)

theorem ablock_eq (safe text : List Char) :
    ablock safe text =
      "<a href=\"".data ++ safe ++
        "\" target=\"_blank\" rel=\"noopener noreferrer\">".data ++ text ++ "</a>".data := by
  simp [ablock, attChars, dq]

/-! ### Structural lemmas about the matcher components -/

theorem splitAtChar_struct {c : Char} :
    ∀ {s a b : List Char}, splitAtChar c s = some (a, b) → s = a ++ c :: b ∧ c ∉ a := by
  intro s
  induction s with
  | nil => intro a b h; simp [splitAtChar] at h
  | cons x xs ih =>
    intro a b h
    by_cases hx : x = c
    · rw [splitAtChar, if_pos hx] at h
      simp at h
      obtain ⟨rfl, rfl⟩ := h
      simp [hx]
    · rw [splitAtChar, if_neg hx] at h
      cases hs : splitAtChar c xs with
      | none => rw [hs] at h; simp at h
      | some p =>
        rw [hs] at h
        simp at h
        obtain ⟨rfl, rfl⟩ := h
        have hs' : splitAtChar c xs = some (p.1, p.2) := by rw [hs]
        obtain ⟨hxs, hnp⟩ := ih hs'
        constructor
        · rw [hxs]; simp
        · intro hmem
          rcases List.mem_cons.mp hmem with h' | h'
          · exact hx h'.symm
          · exact hnp h'

theorem splitAtChar_recomp {c : Char} :
    ∀ {a : List Char} (b : List Char), c ∉ a → splitAtChar c (a ++ c :: b) = some (a, b) := by
  intro a
  induction a with
  | nil => intro b _; simp [splitAtChar]
  | cons x xs ih =>
    intro b hc
    have hx : ¬ x = c := fun h => hc (by simp [h])
    have hxs : c ∉ xs := fun h => hc (by simp [h])
    simp [splitAtChar, hx, ih b hxs]

theorem splitAtChar_none {c : Char} :
    ∀ {s : List Char}, splitAtChar c s = none → c ∉ s := by
  intro s
  induction s with
  | nil => intro _; simp
  | cons x xs ih =>
    intro h
    by_cases hx : x = c
    · rw [splitAtChar, if_pos hx] at h
      exact absurd h (by simp)
    · rw [splitAtChar, if_neg hx] at h
      cases hs : splitAtChar c xs with
      | some p => rw [hs] at h; simp at h
      | none =>
        intro hmem
        rcases List.mem_cons.mp hmem with h' | h'
        · exact hx h'.symm
        · exact ih hs h'

theorem isCloseAt_prefix_false {u v : List Char} (h : isCloseAt (u ++ v) = false) :
    isCloseAt u = false := by
  match u with
  | [] => rfl
  | [a] => rfl
  | [a, b] => rfl
  | [a, b, c] => rfl
  | a :: b :: c :: d :: rest => simpa [isCloseAt] using h

theorem isCloseAt_boundary {u : List Char} (hu : u ≠ []) (h : isCloseAt u = false)
    (ac : Char) (m : List Char) :
    isCloseAt (u ++ '<' :: '/' :: ac :: '>' :: m) = false := by
  match u with
  | [a] => simp [isCloseAt]
  | [a, b] => simp [isCloseAt]
  | [a, b, c] => simp [isCloseAt]
  | a :: b :: c :: d :: rest => simpa [isCloseAt] using h

theorem hasClose_append_close (ac : Char) (hac : ac.toLower = 'a') :
    ∀ (x y : List Char), hasClose (x ++ '<' :: '/' :: ac :: '>' :: y) = true := by
  intro x
  induction x with
  | nil => intro y; simp [hasClose, isCloseAt, hac]
  | cons a x ih =>
    intro y
    have : hasClose ((a :: x) ++ '<' :: '/' :: ac :: '>' :: y) =
        (isCloseAt ((a :: x) ++ '<' :: '/' :: ac :: '>' :: y) ||
          hasClose (x ++ '<' :: '/' :: ac :: '>' :: y)) := by
      cases x <;> rfl
    rw [this, ih y, Bool.or_true]

theorem hasClose_suffix {z r : List Char} (hs : z <:+ r) (hz : hasClose z = true) :
    hasClose r = true := by
  obtain ⟨pre, rfl⟩ := hs
  induction pre with
  | nil => simpa using hz
  | cons a pre ih =>
    have : hasClose ((a :: pre) ++ z) = (isCloseAt ((a :: pre) ++ z) || hasClose (pre ++ z)) := by
      cases pre <;> cases z <;> rfl
    rw [this, ih, Bool.or_true]

theorem findClose_struct :
    ∀ {s t r : List Char}, findClose s = some (t, r) →
      ∃ ac : Char, s = t ++ '<' :: '/' :: ac :: '>' :: r ∧ ac.toLower = 'a' ∧
        hasClose t = false := by
  intro s
  induction s with
  | nil => intro t r h; simp [findClose] at h
  | cons x xs ih =>
    intro t r h
    by_cases hc : isCloseAt (x :: xs) = true
    · rw [findClose, if_pos hc] at h
      match x, xs, h, hc with
      | a, [], h, hc => simp [isCloseAt] at hc
      | a, [b], h, hc => simp [isCloseAt] at hc
      | a, [b, c], h, hc => simp [isCloseAt] at hc
      | a, b :: c :: d :: rest, h, hc =>
        simp [isCloseAt] at hc
        obtain ⟨⟨⟨rfl, rfl⟩, hcl⟩, rfl⟩ := hc
        simp at h
        obtain ⟨rfl, rfl⟩ := h
        exact ⟨c, by simp, hcl, rfl⟩
    · rw [findClose, if_neg hc] at h
      cases hfc : findClose xs with
      | none => rw [hfc] at h; simp at h
      | some p =>
        rw [hfc] at h
        simp at h
        obtain ⟨rfl, rfl⟩ := h
        obtain ⟨ac, hdec, hacl, hcl⟩ := ih hfc
        refine ⟨ac, by simp [hdec], hacl, ?_⟩
        have hfalse : isCloseAt ((x :: p.1) ++ ('<' :: '/' :: ac :: '>' :: p.2)) = false := by
          have hx2 : x :: xs = (x :: p.1) ++ ('<' :: '/' :: ac :: '>' :: p.2) := by simp [hdec]
          rw [← hx2]
          simpa using hc
        have hica : isCloseAt (x :: p.1) = false := isCloseAt_prefix_false hfalse
        have hrest : hasClose (x :: p.1) = (isCloseAt (x :: p.1) || hasClose p.1) := rfl
        rw [hrest, hica, hcl]
        rfl

theorem findClose_recomp :
    ∀ {t : List Char} (ac : Char) (m : List Char), hasClose t = false → ac.toLower = 'a' →
      findClose (t ++ '<' :: '/' :: ac :: '>' :: m) = some (t, m) := by
  intro t
  induction t with
  | nil =>
    intro ac m _ hac
    rw [List.nil_append, findClose, if_pos (by simp [isCloseAt, hac])]
    simp
  | cons x t ih =>
    intro ac m hct hac
    have hsplit : hasClose (x :: t) = (isCloseAt (x :: t) || hasClose t) := rfl
    rw [hsplit] at hct
    have h1 : isCloseAt (x :: t) = false := by
      cases h' : isCloseAt (x :: t) <;> simp [h'] at hct ⊢
    have h2 : hasClose t = false := by
      cases h' : hasClose t <;> simp [h'] at hct ⊢
    have hb : isCloseAt (x :: (t ++ '<' :: '/' :: ac :: '>' :: m)) = false := by
      have hb0 := isCloseAt_boundary (u := x :: t) (by simp) h1 ac m
      simpa using hb0
    rw [List.cons_append, findClose, if_neg (by simp [hb])]
    rw [ih ac m h2 hac]
    rfl

theorem findClose_none :
    ∀ {s : List Char}, findClose s = none → hasClose s = false := by
  intro s
  induction s with
  | nil => intro _; rfl
  | cons x xs ih =>
    intro h
    by_cases hc : isCloseAt (x :: xs) = true
    · rw [findClose, if_pos hc] at h
      simp at h
    · rw [findClose, if_neg hc] at h
      cases hfc : findClose xs with
      | some p => rw [hfc] at h; simp at h
      | none =>
        have hrest := ih hfc
        have : hasClose (x :: xs) = (isCloseAt (x :: xs) || hasClose xs) := rfl
        rw [this, hrest, Bool.or_false]
        simpa using hc

theorem first_occ {c : Char} :
    ∀ {g : List Char} {r2 A B : List Char},
      g ++ c :: r2 = A ++ c :: B → c ∉ g → B <:+ r2 := by
  intro g
  induction g with
  | nil =>
    intro r2 A B h _
    cases A with
    | nil =>
      simp at h
      subst h
      exact List.suffix_refl _
    | cons a A' =>
      simp at h
      obtain ⟨rfl, hr⟩ := h
      exact ⟨A' ++ [c], by simp [hr]⟩
  | cons x g' ih =>
    intro r2 A B h hc
    cases A with
    | nil =>
      simp at h
      obtain ⟨rfl, _⟩ := h
      exact absurd (List.mem_cons_self x g') hc
    | cons a A' =>
      simp at h
      obtain ⟨rfl, hr⟩ := h
      exact ih (by simpa using hr) (fun hm => hc (by simp [hm]))

theorem takeWhile_append_all {p : Char → Bool} :
    ∀ {ws rest : List Char}, (∀ c ∈ ws, p c = true) →
      (∀ d tl, rest = d :: tl → p d = false) →
      (ws ++ rest).takeWhile p = ws ∧ (ws ++ rest).dropWhile p = rest := by
  intro ws
  induction ws with
  | nil =>
    intro rest _ hrest
    cases rest with
    | nil => simp
    | cons d tl => simp [List.takeWhile, List.dropWhile, hrest d tl rfl]
  | cons w ws ih =>
    intro rest hws hrest
    have hw : p w = true := hws w (by simp)
    have hws' : ∀ c ∈ ws, p c = true := fun c hc => hws c (by simp [hc])
    obtain ⟨h1, h2⟩ := ih hws' hrest
    simp [List.takeWhile, List.dropWhile, hw, h1, h2]

theorem takeWhile_boundary {p : Char → Bool} {x : Char} (hx : p x = false) :
    ∀ (u X : List Char),
      (u ++ x :: X).takeWhile p = u.takeWhile p ∧
        (u ++ x :: X).dropWhile p = u.dropWhile p ++ x :: X := by
  intro u
  induction u with
  | nil => intro X; simp [List.takeWhile, List.dropWhile, hx]
  | cons a u ih =>
    intro X
    by_cases ha : p a = true
    · obtain ⟨h1, h2⟩ := ih X
      simp [List.takeWhile, List.dropWhile, ha, h1, h2]
    · have ha' : p a = false := by simpa using ha
      simp [List.takeWhile, List.dropWhile, ha']

theorem mem_takeWhile {p : Char → Bool} :
    ∀ {l : List Char} {c : Char}, c ∈ l.takeWhile p → p c = true := by
  intro l
  induction l with
  | nil => intro c h; simp [List.takeWhile] at h
  | cons x xs ih =>
    intro c h
    by_cases hx : p x = true
    · rw [List.takeWhile, hx] at h
      rcases List.mem_cons.mp h with rfl | h'
      · exact hx
      · exact ih h'
    · rw [List.takeWhile] at h
      rw [Bool.not_eq_true] at hx
      rw [hx] at h
      simp at h

theorem matchAnchorAt_nil : matchAnchorAt [] = none := rfl

theorem matchAnchorAt_single (c : Char) : matchAnchorAt [c] = none := rfl

theorem matchAnchorAt_not_lt {c : Char} (hc : ¬ c = '<') (X : List Char) :
    matchAnchorAt (c :: X) = none := by
  cases X with
  | nil => rfl
  | cons b r => simp [matchAnchorAt, hc]

/-- Full decomposition of a successful anchor match: the matched region is
`<a` + whitespace + `href="` (letters case-insensitive) + nonempty quote-free
href + `"` + a `>`-free attribute run + `>` + a close-tag-free text + `</a>`. -/
theorem matchAnchorAt_struct :
    ∀ {s h t r : List Char}, matchAnchorAt s = some (h, t, r) →
      ∃ (a0 : Char) (ws : List Char) (c1 c2 c3 c4 : Char) (att : List Char) (ac : Char),
        s = '<' :: a0 :: (ws ++ c1 :: c2 :: c3 :: c4 :: '=' :: dq ::
          (h ++ dq :: (att ++ '>' :: (t ++ '<' :: '/' :: ac :: '>' :: r)))) ∧
        a0.toLower = 'a' ∧ ws ≠ [] ∧ (∀ c ∈ ws, pyIsSpace c = true) ∧
        c1.toLower = 'h' ∧ c2.toLower = 'r' ∧ c3.toLower = 'e' ∧ c4.toLower = 'f' ∧
        h ≠ [] ∧ dq ∉ h ∧ ('>' : Char) ∉ att ∧ hasClose t = false ∧ ac.toLower = 'a' := by
  intro s h t r hm
  match s, hm with
  | [], hm => simp [matchAnchorAt] at hm
  | [a], hm => simp [matchAnchorAt] at hm
  | a :: b :: rest, hm =>
    by_cases hab : a = '<' ∧ b.toLower = 'a'
    case neg => simp [matchAnchorAt, hab] at hm
    obtain ⟨rfl, hb⟩ := hab
    have hm1 : matchAfterA rest = some (h, t, r) := by
      simpa [matchAnchorAt, hb] using hm
    rw [matchAfterA] at hm1
    by_cases hws : (rest.takeWhile pyIsSpace).isEmpty
    case pos => rw [if_pos hws] at hm1; simp at hm1
    rw [if_neg hws] at hm1
    have hrest : rest = rest.takeWhile pyIsSpace ++ rest.dropWhile pyIsSpace :=
      (List.takeWhile_append_dropWhile pyIsSpace rest).symm
    match hρ : rest.dropWhile pyIsSpace, hm1 with
    | [], hm1 => simp [matchHref] at hm1
    | [k1], hm1 => simp [matchHref] at hm1
    | [k1, k2], hm1 => simp [matchHref] at hm1
    | [k1, k2, k3], hm1 => simp [matchHref] at hm1
    | [k1, k2, k3, k4], hm1 => simp [matchHref] at hm1
    | [k1, k2, k3, k4, k5], hm1 => simp [matchHref] at hm1
    | k1 :: k2 :: k3 :: k4 :: k5 :: k6 :: rest2, hm1 =>
      by_cases hg : k1.toLower = 'h' ∧ k2.toLower = 'r' ∧ k3.toLower = 'e' ∧
          k4.toLower = 'f' ∧ k5 = '=' ∧ k6 = dq
      case neg => simp [matchHref, hg] at hm1
      obtain ⟨hk1, hk2, hk3, hk4, rfl, rfl⟩ := hg
      have hm2 : matchQuote rest2 = some (h, t, r) := by
        simpa [matchHref, hk1, hk2, hk3, hk4] using hm1
      rw [matchQuote] at hm2
      cases hq : splitAtChar dq rest2 with
      | none => rw [hq] at hm2; simp at hm2
      | some p =>
        obtain ⟨g, r2⟩ := p
        rw [hq] at hm2
        by_cases hpe : g.isEmpty
        case pos => simp [hpe] at hm2
        rw [Bool.not_eq_true] at hpe
        simp only [hpe, Bool.false_eq_true, if_false] at hm2
        cases hgt : splitAtChar '>' r2 with
        | none => rw [hgt] at hm2; simp at hm2
        | some q =>
          obtain ⟨att0, r3⟩ := q
          rw [hgt] at hm2
          have hm3 : (match findClose r3 with
              | none => none
              | some (text, r4) => some (g, text, r4)) = some (h, t, r) := hm2
          cases hfc : findClose r3 with
          | none => rw [hfc] at hm3; simp at hm3
          | some w =>
            obtain ⟨tx, r4⟩ := w
            rw [hfc] at hm3
            simp at hm3
            obtain ⟨rfl, rfl, rfl⟩ := hm3
            obtain ⟨hrest2, hdqh⟩ := splitAtChar_struct hq
            obtain ⟨hp2, hgta⟩ := splitAtChar_struct hgt
            obtain ⟨ac, hq2, hacl, hclw⟩ := findClose_struct hfc
            refine ⟨b, rest.takeWhile pyIsSpace, k1, k2, k3, k4, att0, ac, ?_, hb,
              by simpa using hws, fun c hc => mem_takeWhile hc, hk1, hk2, hk3, hk4,
              by simpa using hpe, hdqh, hgta, hclw, hacl⟩
            calc '<' :: b :: rest
                = '<' :: b :: (rest.takeWhile pyIsSpace ++ rest.dropWhile pyIsSpace) := by
                  rw [← hrest]
              _ = _ := by rw [hρ, hrest2, hp2, hq2]

theorem pyIsSpace_toLower {c : Char} (hc : pyIsSpace c = true) : c.toLower = c := by
  have h1 : c = ' ' ∨ c = '\t' ∨ c = '\n' ∨ c = '\r' ∨ c = '\x0b' ∨ c = '\x0c' := by
    simpa [pyIsSpace, or_assoc] using hc
  rcases h1 with rfl | rfl | rfl | rfl | rfl | rfl <;> decide

/-- Recomposition: a list of the matched shape produces exactly that match,
whatever follows it. -/
theorem matchAnchorAt_recomp (a0 : Char) (ws : List Char) (c1 c2 c3 c4 : Char)
    (h att t m : List Char) (ac : Char)
    (ha : a0.toLower = 'a') (hws : ws ≠ []) (hwsp : ∀ c ∈ ws, pyIsSpace c = true)
    (hc1 : c1.toLower = 'h') (hc2 : c2.toLower = 'r') (hc3 : c3.toLower = 'e')
    (hc4 : c4.toLower = 'f') (hh : h ≠ []) (hq : dq ∉ h) (hat : ('>' : Char) ∉ att)
    (ht : hasClose t = false) (hac : ac.toLower = 'a') :
    matchAnchorAt ('<' :: a0 :: (ws ++ c1 :: c2 :: c3 :: c4 :: '=' :: dq ::
        (h ++ dq :: (att ++ '>' :: (t ++ '<' :: '/' :: ac :: '>' :: m))))) =
      some (h, t, m) := by
  have hc1s : pyIsSpace c1 = false := by
    cases hcs : pyIsSpace c1
    · rfl
    · exfalso
      have hfix := pyIsSpace_toLower hcs
      have hev : c1 = 'h' := hfix ▸ hc1
      rw [hev] at hcs
      exact absurd hcs (by decide)
  have htw := @takeWhile_append_all pyIsSpace ws
    (c1 :: c2 :: c3 :: c4 :: '=' :: dq ::
      (h ++ dq :: (att ++ '>' :: (t ++ '<' :: '/' :: ac :: '>' :: m))))
    hwsp (by intro d tl hdt; injection hdt with h1 _; rw [← h1]; exact hc1s)
  have e1 : ∀ b : List Char, splitAtChar dq (h ++ dq :: b) = some (h, b) :=
    fun b => splitAtChar_recomp b hq
  have e2 : ∀ b : List Char, splitAtChar '>' (att ++ '>' :: b) = some (att, b) :=
    fun b => splitAtChar_recomp b hat
  have e3 : findClose (t ++ '<' :: '/' :: ac :: '>' :: m) = some (t, m) :=
    findClose_recomp ac m ht hac
  rw [matchAnchorAt, if_pos (by exact ⟨rfl, ha⟩)]
  rw [matchAfterA, htw.1, htw.2, if_neg (by simp [hws])]
  rw [matchHref, if_pos (by simp [hc1, hc2, hc3, hc4])]
  simp [matchQuote, e1, e2, e3, hh]

theorem matchAnchorAt_ablock {u t : List Char} (m : List Char) (hu : u ≠ [])
    (hq : dq ∉ u) (ht : hasClose t = false) :
    matchAnchorAt (ablock u t ++ m) = some (u, t, m) := by
  have hshape : ablock u t ++ m = '<' :: 'a' :: ([' '] ++ 'h' :: 'r' :: 'e' :: 'f' :: '=' :: dq ::
      (u ++ dq :: (attChars ++ '>' :: (t ++ '<' :: '/' :: 'a' :: '>' :: m)))) := by
    simp [ablock]
  rw [hshape]
  exact matchAnchorAt_recomp 'a' [' '] 'h' 'r' 'e' 'f' u attChars t m 'a'
    (by decide) (by simp) (by intro c hc; simp at hc; subst hc; decide)
    (by decide) (by decide) (by decide) (by decide) hu hq (by decide) ht (by decide)

theorem matchAnchorAt_length {s h t r : List Char} (hm : matchAnchorAt s = some (h, t, r)) :
    r.length < s.length := by
  obtain ⟨a0, ws, c1, c2, c3, c4, att, ac, hdec, _⟩ := matchAnchorAt_struct hm
  subst hdec
  simp [List.length_append]
  omega

theorem subAnchorsF_nilF : ∀ fuel, subAnchorsF fuel [] = []
  | 0 => rfl
  | _ + 1 => rfl

theorem subAnchorsF_congr :
    ∀ (f1 f2 : Nat) (s : List Char), s.length ≤ f1 → s.length ≤ f2 →
      subAnchorsF f1 s = subAnchorsF f2 s := by
  intro f1
  induction f1 with
  | zero =>
    intro f2 s h1 _
    have hs : s = [] := List.eq_nil_of_length_eq_zero (Nat.le_zero.mp h1)
    subst hs
    rw [subAnchorsF_nilF, subAnchorsF_nilF]
  | succ f1 ih =>
    intro f2 s h1 h2
    cases f2 with
    | zero =>
      have hs : s = [] := List.eq_nil_of_length_eq_zero (Nat.le_zero.mp h2)
      subst hs
      rw [subAnchorsF_nilF, subAnchorsF_nilF]
    | succ f2 =>
      cases hm : matchAnchorAt s with
      | some p =>
        obtain ⟨h, t, r⟩ := p
        have hlen := matchAnchorAt_length hm
        simp only [subAnchorsF, hm]
        rw [ih f2 r (by omega) (by omega)]
      | none =>
        cases s with
        | nil => rfl
        | cons c s' =>
          simp only [subAnchorsF, hm]
          simp only [List.length_cons] at h1 h2
          rw [ih f2 s' (by omega) (by omega)]

theorem subAnchors_nil : subAnchors [] = [] := rfl

theorem subAnchors_match {s h t r : List Char} (hm : matchAnchorAt s = some (h, t, r)) :
    subAnchors s = ablock (sanitizeUrlL h) t ++ subAnchors r := by
  have hlen := matchAnchorAt_length hm
  cases s with
  | nil => simp [matchAnchorAt] at hm
  | cons c s' =>
    show subAnchorsF (c :: s').length (c :: s') = _
    simp only [List.length_cons, subAnchorsF, hm]
    have : subAnchorsF s'.length r = subAnchors r := by
      apply subAnchorsF_congr
      · simp only [List.length_cons] at hlen; omega
      · exact Nat.le_refl _
    rw [this]

theorem subAnchors_nomatch {c : Char} {s' : List Char} (hm : matchAnchorAt (c :: s') = none) :
    subAnchors (c :: s') = c :: subAnchors s' := by
  show subAnchorsF (c :: s').length (c :: s') = _
  simp only [List.length_cons, subAnchorsF, hm]
  rfl

theorem scanHrefsF_nilF : ∀ fuel, scanHrefsF fuel [] = []
  | 0 => rfl
  | _ + 1 => rfl

theorem scanHrefsF_congr :
    ∀ (f1 f2 : Nat) (s : List Char), s.length ≤ f1 → s.length ≤ f2 →
      scanHrefsF f1 s = scanHrefsF f2 s := by
  intro f1
  induction f1 with
  | zero =>
    intro f2 s h1 _
    have hs : s = [] := List.eq_nil_of_length_eq_zero (Nat.le_zero.mp h1)
    subst hs
    rw [scanHrefsF_nilF, scanHrefsF_nilF]
  | succ f1 ih =>
    intro f2 s h1 h2
    cases f2 with
    | zero =>
      have hs : s = [] := List.eq_nil_of_length_eq_zero (Nat.le_zero.mp h2)
      subst hs
      rw [scanHrefsF_nilF, scanHrefsF_nilF]
    | succ f2 =>
      cases hm : matchAnchorAt s with
      | some p =>
        obtain ⟨h, t, r⟩ := p
        have hlen := matchAnchorAt_length hm
        simp only [scanHrefsF, hm]
        rw [ih f2 r (by omega) (by omega)]
      | none =>
        cases s with
        | nil => rfl
        | cons c s' =>
          simp only [scanHrefsF, hm]
          simp only [List.length_cons] at h1 h2
          rw [ih f2 s' (by omega) (by omega)]

theorem scanHrefs_match {s h t r : List Char} (hm : matchAnchorAt s = some (h, t, r)) :
    scanHrefs s = h :: scanHrefs r := by
  have hlen := matchAnchorAt_length hm
  cases s with
  | nil => simp [matchAnchorAt] at hm
  | cons c s' =>
    show scanHrefsF (c :: s').length (c :: s') = _
    simp only [List.length_cons, scanHrefsF, hm]
    have : scanHrefsF s'.length r = scanHrefs r := by
      apply scanHrefsF_congr
      · simp only [List.length_cons] at hlen; omega
      · exact Nat.le_refl _
    rw [this]

theorem scanHrefs_nomatch {c : Char} {s' : List Char} (hm : matchAnchorAt (c :: s') = none) :
    scanHrefs (c :: s') = scanHrefs s' := by
  show scanHrefsF (c :: s').length (c :: s') = _
  simp only [List.length_cons, scanHrefsF, hm]
  rfl

/-- First-match decomposition of a scan: either no position of `s` matches
(and the substitution is the identity), or `s` splits into an unmatched
prefix, a match, and a recursively scanned remainder. -/
theorem subAnchors_decomp :
    ∀ s : List Char, subAnchors s = s ∨
      ∃ (u v h t r : List Char), s = u ++ v ∧ matchAnchorAt v = some (h, t, r) ∧
        subAnchors s = u ++ (ablock (sanitizeUrlL h) t ++ subAnchors r) := by
  intro s
  induction s with
  | nil => left; rfl
  | cons c s' ih =>
    cases hm : matchAnchorAt (c :: s') with
    | some p =>
      obtain ⟨h, t, r⟩ := p
      right
      exact ⟨[], c :: s', h, t, r, by simp, hm, by simpa using subAnchors_match hm⟩
    | none =>
      rcases ih with hid | ⟨u, v, h, t, r, hsplit, hmv, hsub⟩
      · left
        rw [subAnchors_nomatch hm, hid]
      · right
        refine ⟨c :: u, v, h, t, r, by simp [hsplit], hmv, ?_⟩
        rw [subAnchors_nomatch hm, hsub]
        simp

theorem goodTail_of_match {v h t r : List Char} (hm : matchAnchorAt v = some (h, t, r)) :
    GoodTail v := by
  obtain ⟨a0, ws, c1, c2, c3, c4, att, ac, hdec, _, _, _, _, _, _, _, _, _, _, _, hacl⟩ :=
    matchAnchorAt_struct hm
  subst hdec
  refine ⟨⟨_, rfl⟩, '<' :: a0 :: (ws ++ [c1, c2, c3, c4, '=']),
    h ++ dq :: (att ++ '>' :: (t ++ '<' :: '/' :: ac :: '>' :: r)),
    h ++ dq :: att, t ++ '<' :: '/' :: ac :: '>' :: r, by simp, by simp,
    hasClose_append_close ac hacl t r⟩

/-- If a suffix with the match structure follows, the quote stage can fail at
the original text only when the scanned prefix itself starts with a quote,
and then it fails whatever the structured suffix is replaced with. -/
theorem matchQuote_pres {e X : List Char} (hX : GoodTail X)
    (hn : matchQuote (e ++ X) = none) :
    ∀ Y : List Char, matchQuote (e ++ Y) = none := by
  obtain ⟨⟨Xr, hXr⟩, A, B, C, D, hAB, hCD, hD⟩ := hX
  rw [matchQuote] at hn
  cases hsp : splitAtChar dq (e ++ X) with
  | none =>
    exfalso
    exact splitAtChar_none hsp (by rw [hAB]; simp)
  | some p =>
    obtain ⟨g, r2⟩ := p
    rw [hsp] at hn
    obtain ⟨hdec, hgq⟩ := splitAtChar_struct hsp
    by_cases hge : g.isEmpty
    · have hgee : g = [] := by simpa using hge
      subst hgee
      simp only [List.nil_append] at hdec
      cases e with
      | nil =>
        exfalso
        rw [List.nil_append] at hdec
        rw [hXr] at hdec
        have : ('<' : Char) = dq := by
          have := congrArg (fun l => l.head?) hdec
          simpa using this
        exact absurd this (by decide)
      | cons e0 e' =>
        have he0 : e0 = dq := by
          have := congrArg (fun l => l.head?) hdec
          simpa using this
        subst he0
        intro Y
        rw [matchQuote]
        have : splitAtChar dq ((dq :: e') ++ Y) = some ([], e' ++ Y) := by
          simp [splitAtChar]
        rw [this]
        simp
    · exfalso
      rw [Bool.not_eq_true] at hge
      simp only [hge, Bool.false_eq_true, if_false] at hn
      have hBr2 : B <:+ r2 := by
        refine first_occ (g := g) (A := e ++ A) ?_ hgq
        rw [← hdec, hAB]
        simp
      cases hgt : splitAtChar '>' r2 with
      | none =>
        have hgmem : ('>' : Char) ∈ B := by rw [hCD]; simp
        exact splitAtChar_none hgt (hBr2.subset hgmem)
      | some q =>
        obtain ⟨att, r3⟩ := q
        rw [hgt] at hn
        have hn2 : (match findClose r3 with
            | none => none
            | some (text, r4) => some (g, text, r4)) = none := hn
        obtain ⟨hr2dec, hatgt⟩ := splitAtChar_struct hgt
        cases hfc : findClose r3 with
        | some w => rw [hfc] at hn2; simp at hn2
        | none =>
          have hr3 := findClose_none hfc
          obtain ⟨E, hE⟩ := hBr2
          have hDr3 : D <:+ r3 := by
            refine first_occ (g := att) (A := E ++ C) ?_ hatgt
            rw [← hr2dec, ← hE, hCD]
            simp
          exact absurd (hasClose_suffix hDr3 hD) (by rw [hr3]; simp)

theorem matchHref_struct {L h t r : List Char} (hm : matchHref L = some (h, t, r)) :
    ∃ (c1 c2 c3 c4 : Char) (rest : List Char),
      L = c1 :: c2 :: c3 :: c4 :: '=' :: dq :: rest ∧
        c1.toLower = 'h' ∧ c2.toLower = 'r' ∧ c3.toLower = 'e' ∧ c4.toLower = 'f' := by
  match L, hm with
  | [], hm => simp [matchHref] at hm
  | [k1], hm => simp [matchHref] at hm
  | [k1, k2], hm => simp [matchHref] at hm
  | [k1, k2, k3], hm => simp [matchHref] at hm
  | [k1, k2, k3, k4], hm => simp [matchHref] at hm
  | [k1, k2, k3, k4, k5], hm => simp [matchHref] at hm
  | k1 :: k2 :: k3 :: k4 :: k5 :: k6 :: rest, hm =>
    by_cases hg : k1.toLower = 'h' ∧ k2.toLower = 'r' ∧ k3.toLower = 'e' ∧
        k4.toLower = 'f' ∧ k5 = '=' ∧ k6 = dq
    case neg => simp [matchHref, hg] at hm
    obtain ⟨hk1, hk2, hk3, hk4, rfl, rfl⟩ := hg
    exact ⟨k1, k2, k3, k4, rest, rfl, hk1, hk2, hk3, hk4⟩

theorem matchHref_boundary {d Z : List Char} (hd : d.length ≤ 5) :
    matchHref (d ++ '<' :: Z) = none := by
  cases hm : matchHref (d ++ '<' :: Z) with
  | none => rfl
  | some p =>
    exfalso
    obtain ⟨h, t, r⟩ := p
    obtain ⟨c1, c2, c3, c4, rest, hdec, hk1, hk2, hk3, hk4⟩ := matchHref_struct hm
    have hget : (d ++ '<' :: Z)[d.length]? = some '<' := by
      rw [List.getElem?_append_right (Nat.le_refl _)]
      simp
    rw [hdec] at hget
    have h5 : d.length = 0 ∨ d.length = 1 ∨ d.length = 2 ∨ d.length = 3 ∨
        d.length = 4 ∨ d.length = 5 := by omega
    rcases h5 with h5 | h5 | h5 | h5 | h5 | h5 <;> rw [h5] at hget <;> simp at hget
    · rw [hget] at hk1; exact absurd hk1 (by decide)
    · rw [hget] at hk2; exact absurd hk2 (by decide)
    · rw [hget] at hk3; exact absurd hk3 (by decide)
    · rw [hget] at hk4; exact absurd hk4 (by decide)
    · exact absurd hget (by decide)

theorem matchHref_pres {d X : List Char} (hX : GoodTail X)
    (hn : matchHref (d ++ X) = none) :
    ∀ {Y : List Char}, (∃ Yr, Y = '<' :: Yr) → matchHref (d ++ Y) = none := by
  intro Y hY
  obtain ⟨Yr, rfl⟩ := hY
  have hXlt := hX.1
  obtain ⟨Xr, hXr⟩ := hXlt
  by_cases hd : d.length ≤ 5
  · exact matchHref_boundary hd
  · match d, hd with
    | k1 :: k2 :: k3 :: k4 :: k5 :: k6 :: d', _ =>
      by_cases hg : k1.toLower = 'h' ∧ k2.toLower = 'r' ∧ k3.toLower = 'e' ∧
          k4.toLower = 'f' ∧ k5 = '=' ∧ k6 = dq
      · obtain ⟨hk1, hk2, hk3, hk4, rfl, rfl⟩ := hg
        have hq : matchQuote (d' ++ X) = none := by
          have hform : (k1 :: k2 :: k3 :: k4 :: '=' :: dq :: d') ++ X =
              k1 :: k2 :: k3 :: k4 :: '=' :: dq :: (d' ++ X) := by simp
          rw [hform, matchHref, if_pos ⟨hk1, hk2, hk3, hk4, rfl, rfl⟩] at hn
          exact hn
        have hqY := matchQuote_pres hX hq ('<' :: Yr)
        have hformY : (k1 :: k2 :: k3 :: k4 :: '=' :: dq :: d') ++ '<' :: Yr =
            k1 :: k2 :: k3 :: k4 :: '=' :: dq :: (d' ++ '<' :: Yr) := by simp
        rw [hformY, matchHref, if_pos ⟨hk1, hk2, hk3, hk4, rfl, rfl⟩]
        exact hqY
      · have hformY : (k1 :: k2 :: k3 :: k4 :: k5 :: k6 :: d') ++ '<' :: Yr =
            k1 :: k2 :: k3 :: k4 :: k5 :: k6 :: (d' ++ '<' :: Yr) := by simp
        rw [hformY, matchHref, if_neg hg]
    | [], hd => exact absurd (by simp) hd
    | [k1], hd => exact absurd (by simp) hd
    | [k1, k2], hd => exact absurd (by simp) hd
    | [k1, k2, k3], hd => exact absurd (by simp) hd
    | [k1, k2, k3, k4], hd => exact absurd (by simp) hd
    | [k1, k2, k3, k4, k5], hd => exact absurd (by simp) hd

theorem matchAfterA_pres {u X : List Char} (hX : GoodTail X)
    (hn : matchAfterA (u ++ X) = none) :
    ∀ {Y : List Char}, (∃ Yr, Y = '<' :: Yr) → matchAfterA (u ++ Y) = none := by
  intro Y hY
  obtain ⟨Xr, hXr⟩ := hX.1
  obtain ⟨Yr, hYr⟩ := hY
  have hsX : pyIsSpace '<' = false := by decide
  have htX := takeWhile_boundary (p := pyIsSpace) hsX u Xr
  have htY := takeWhile_boundary (p := pyIsSpace) hsX u Yr
  rw [matchAfterA, hXr, htX.1, htX.2] at hn
  rw [matchAfterA, hYr, htY.1, htY.2]
  by_cases hw : (u.takeWhile pyIsSpace).isEmpty
  · rw [if_pos hw]
  · rw [if_neg hw] at hn ⊢
    exact matchHref_pres (hXr ▸ hX) hn ⟨Yr, rfl⟩

/-- No-match preservation: if the anchor pattern fails at a position of the
original text, it also fails at that position after the rest of the text has
been rewritten by the scan. -/
theorem matchAnchorAt_pres {c : Char} {s : List Char}
    (hn : matchAnchorAt (c :: s) = none) :
    matchAnchorAt (c :: subAnchors s) = none := by
  by_cases hc : c = '<'
  case neg => exact matchAnchorAt_not_lt hc _
  subst hc
  rcases subAnchors_decomp s with hid | ⟨u, v, h, t, r, hsplit, hmv, hsub⟩
  · rw [hid]; exact hn
  · subst hsplit
    rw [hsub]
    have hGX : GoodTail v := goodTail_of_match hmv
    obtain ⟨vr, hvr⟩ := hGX.1
    cases u with
    | nil =>
      rw [List.nil_append]
      cases har : ablock (sanitizeUrlL h) t ++ subAnchors r with
      | nil => rfl
      | cons y ys =>
        have hy : y = '<' := by
          have : (ablock (sanitizeUrlL h) t ++ subAnchors r).head? = some '<' := by
            rw [ablock]; rfl
          rw [har] at this
          simpa using this
        subst hy
        simp [matchAnchorAt]
    | cons b u' =>
      simp only [List.cons_append] at hn
      simp only [List.cons_append]
      by_cases hb : b.toLower = 'a'
      · have hn' : matchAfterA (u' ++ v) = none := by
          rw [matchAnchorAt, if_pos ⟨rfl, hb⟩] at hn
          exact hn
        have hout := matchAfterA_pres hGX hn'
          (Y := ablock (sanitizeUrlL h) t ++ subAnchors r) ⟨_, rfl⟩
        rw [matchAnchorAt, if_pos ⟨rfl, hb⟩]
        exact hout
      · rw [matchAnchorAt, if_neg (by simp [hb])]

theorem pyStripL_sublist (s : List Char) : (pyStripL s).Sublist s := by
  have h2 : ((s.dropWhile pyIsSpace).reverse.dropWhile pyIsSpace).Sublist
      (s.dropWhile pyIsSpace).reverse := List.dropWhile_sublist _
  have h3 := h2.reverse
  rw [List.reverse_reverse] at h3
  exact h3.trans (List.dropWhile_sublist _)

theorem pyDropTail_eq (trig : Char) (s : List Char) :
    pyDropTail trig s =
      if ((if (s.getLast? = some '\n' : Bool) then s.dropLast else s).reverse.takeWhile
          (fun c => c ≠ '\n')).reverse.contains trig then
        ((if (s.getLast? = some '\n' : Bool) then s.dropLast else s).reverse.dropWhile
            (fun c => c ≠ '\n')).reverse ++
          ((if (s.getLast? = some '\n' : Bool) then s.dropLast else s).reverse.takeWhile
            (fun c => c ≠ '\n')).reverse.takeWhile (fun c => c ≠ trig) ++
          (if (s.getLast? = some '\n' : Bool) then ['\n'] else [])
      else s := rfl

theorem pyDropTail_sublist_aux (trig : Char) (core trail : List Char) :
    ((core.reverse.dropWhile (fun c => c ≠ '\n')).reverse ++
      (core.reverse.takeWhile (fun c => c ≠ '\n')).reverse.takeWhile (fun c => c ≠ trig) ++
      trail).Sublist (core ++ trail) := by
  have hcore : (core.reverse.dropWhile (fun c => c ≠ '\n')).reverse ++
      (core.reverse.takeWhile (fun c => c ≠ '\n')).reverse = core := by
    rw [← List.reverse_append, List.takeWhile_append_dropWhile, List.reverse_reverse]
  have hsub := (List.Sublist.refl
      ((core.reverse.dropWhile (fun c => c ≠ '\n')).reverse)).append
    ((List.takeWhile_sublist (l := (core.reverse.takeWhile (fun c => c ≠ '\n')).reverse)
      (fun c => c ≠ trig)).append (List.Sublist.refl trail))
  have hfin : (core.reverse.dropWhile (fun c => c ≠ '\n')).reverse ++
      ((core.reverse.takeWhile (fun c => c ≠ '\n')).reverse ++ trail) = core ++ trail := by
    rw [← List.append_assoc, hcore]
  rw [hfin] at hsub
  simpa [List.append_assoc] using hsub

theorem pyDropTail_sublist (trig : Char) (s : List Char) : (pyDropTail trig s).Sublist s := by
  rw [pyDropTail_eq]
  by_cases hnl : s.getLast? = some '\n'
  · simp only [hnl, decide_eq_true_eq, if_pos]
    split
    case pos.isFalse => exact List.Sublist.refl s
    case pos.isTrue hct =>
      have hne : s ≠ [] := by
        intro habs
        rw [habs] at hnl
        simp at hnl
      have hlast : s.getLast hne = '\n' := by
        have hgl := List.getLast?_eq_getLast s hne
        rw [hnl] at hgl
        exact (Option.some.injEq _ _ ▸ hgl).symm
      have hs : s.dropLast ++ ['\n'] = s := by
        have hd := List.dropLast_append_getLast hne
        rw [hlast] at hd
        exact hd
      have := pyDropTail_sublist_aux trig s.dropLast ['\n']
      rw [hs] at this
      exact this
  · simp only [hnl, decide_eq_true_eq, if_neg, if_false]
    split
    case neg.isFalse => exact List.Sublist.refl s
    case neg.isTrue hct =>
      have := pyDropTail_sublist_aux trig s []
      rw [List.append_nil] at this
      simpa using this

/-- `_sanitize_url` either falls back to the homepage or returns a sublist of
its input: it never introduces characters. -/
theorem sanitizeUrlL_cases (u : List Char) :
    sanitizeUrlL u = HOMEPAGE_URL.data ∨ (sanitizeUrlL u).Sublist u := by
  rw [sanitizeUrlL]
  by_cases h1 : u.isEmpty
  · rw [if_pos h1]
    exact Or.inl rfl
  · rw [if_neg h1]
    by_cases h2 : deniedScheme (pyStripL u)
    · simp only [h2, if_true]
      exact Or.inl trivial
    · simp only [h2, Bool.false_eq_true, if_false]
      by_cases h3 : containsL trustedDomain (pyStripL u)
      · simp only [h3, Bool.not_true, Bool.false_eq_true, if_false]
        right
        exact ((pyDropTail_sublist '?' _).trans (pyDropTail_sublist '#' _)).trans
          (pyStripL_sublist u)
      · simp only [h3, Bool.not_false, if_true]
        exact Or.inl trivial

theorem sanitizeUrlL_no_dq {u : List Char} (hq : dq ∉ u) : dq ∉ sanitizeUrlL u := by
  rcases sanitizeUrlL_cases u with hh | hs
  · rw [hh]
    decide
  · exact fun hmem => hq (hs.subset hmem)

theorem subAnchors_idem_aux :
    ∀ (n : Nat) (s : List Char), s.length ≤ n →
      (∀ h ∈ scanHrefs s, sanitizeUrlL (sanitizeUrlL h) = sanitizeUrlL h) →
      subAnchors (subAnchors s) = subAnchors s := by
  intro n
  induction n with
  | zero =>
    intro s hs _
    have hnil : s = [] := List.eq_nil_of_length_eq_zero (Nat.le_zero.mp hs)
    subst hnil
    rfl
  | succ n ih =>
    intro s hs H
    cases hm : matchAnchorAt s with
    | some p =>
      obtain ⟨h, t, r⟩ := p
      have hsub := subAnchors_match hm
      have hHh : sanitizeUrlL (sanitizeUrlL h) = sanitizeUrlL h :=
        H h (by rw [scanHrefs_match hm]; simp)
      have hu_ne : sanitizeUrlL h ≠ [] := by
        intro habs
        rw [habs] at hHh
        exact absurd hHh (by decide)
      obtain ⟨_, _, _, _, _, _, _, _, _, _, _, _, _, _, _, _, _, hdqh, _, hclt, _⟩ :=
        matchAnchorAt_struct hm
      have hdq2 : dq ∉ sanitizeUrlL h := sanitizeUrlL_no_dq hdqh
      have hblock := matchAnchorAt_ablock (u := sanitizeUrlL h) (t := t)
        (subAnchors r) hu_ne hdq2 hclt
      rw [hsub, subAnchors_match hblock, hHh]
      have hr : r.length ≤ n := by
        have := matchAnchorAt_length hm
        omega
      rw [ih r hr (fun h' hmem => H h' (by rw [scanHrefs_match hm]; simp [hmem]))]
    | none =>
      cases s with
      | nil => rfl
      | cons c s' =>
        rw [subAnchors_nomatch hm]
        have hout := matchAnchorAt_pres hm
        rw [subAnchors_nomatch hout]
        have hs' : s'.length ≤ n := by
          simp only [List.length_cons] at hs
          omega
        rw [ih s' hs' (fun h' hmem => H h' (by rw [scanHrefs_nomatch hm]; exact hmem))]

/-- C2 counterexample: `_sanitize_anchor_html` is not idempotent.  The href
`x#iotmanufacturingtech.com` passes the domain check (the trusted domain sits
in the fragment), and fragment stripping leaves the bare href `x`; a second
pass then rejects `x` and rewrites it to the homepage, changing the output. -/
theorem sanitize_anchor_html_not_idempotent :
    sanitize_anchor_html
        (sanitize_anchor_html "<a href=\"x#iotmanufacturingtech.com\">t</a>") ≠
      sanitize_anchor_html "<a href=\"x#iotmanufacturingtech.com\">t</a>" := by
  decide

/-- C2 (amended): `_sanitize_anchor_html` is idempotent on every input whose
matched hrefs have sanitized values that are themselves fixed points of
`_sanitize_url` (in particular whenever each sanitized href is the homepage
URL or a clean trusted-domain URL); it is not idempotent in general. -/
theorem sanitize_anchor_html_idem (html : String)
    (H : ∀ h ∈ scanHrefs html.data, sanitizeUrlL (sanitizeUrlL h) = sanitizeUrlL h) :
    sanitize_anchor_html (sanitize_anchor_html html) = sanitize_anchor_html html := by
  have hsub := subAnchors_idem_aux html.data.length html.data (Nat.le_refl _) H
  by_cases he : html.data.isEmpty
  · have h1 : sanitize_anchor_html html = html := by rw [sanitize_anchor_html, if_pos he]
    rw [h1, h1]
  · have h1 : sanitize_anchor_html html = ⟨subAnchors html.data⟩ := by
      rw [sanitize_anchor_html, if_neg he]
    rw [h1]
    by_cases he2 : (subAnchors html.data).isEmpty
    · rw [sanitize_anchor_html, if_pos (by simpa using he2)]
    · rw [sanitize_anchor_html, if_neg (by simpa using he2)]
      exact congrArg String.mk hsub

/-- C2 witness: sanitizing the spec's example anchor twice equals sanitizing
it once (its only href sanitizes to the homepage, a fixed point). -/
theorem sanitize_anchor_html_idem_witness :
    sanitize_anchor_html (sanitize_anchor_html "<a href=\"javascript:evil()\">Click</a>") =
      sanitize_anchor_html "<a href=\"javascript:evil()\">Click</a>" :=
  sanitize_anchor_html_idem "<a href=\"javascript:evil()\">Click</a>" (by decide)

/-- C4 counterexample: an anchor tag whose href is not its first attribute is
left completely unchanged: no forced `target`/`rel` attributes, and the
dangerous scheme survives, contradicting the claim for every anchor tag. -/
theorem sanitize_anchor_html_attr_counterexample :
    sanitize_anchor_html "<a class=\"x\" href=\"javascript:evil()\">Click</a>" =
        "<a class=\"x\" href=\"javascript:evil()\">Click</a>" ∧
      containsL "target=\"_blank\"".data
        (sanitize_anchor_html "<a class=\"x\" href=\"javascript:evil()\">Click</a>").data =
        false := by
  constructor
  · decide
  · decide

/-- C4 (amended): every anchor of the matched shape (href the first
attribute, double-quoted, nonempty) is rewritten: its href goes through
`_sanitize_url`, its original attributes are replaced by
`target="_blank" rel="noopener noreferrer"` whatever they were, and its text
is passed through unchanged; the spec's concrete vector holds. -/
theorem sanitize_anchor_html_rewrite :
    (∀ s h t r : List Char, matchAnchorAt s = some (h, t, r) →
      subAnchors s = ablock (sanitizeUrlL h) t ++ subAnchors r) ∧
      sanitize_anchor_html "<a href=\"javascript:evil()\">Click</a>" =
        String.mk ("<a href=\"https://iotmanufacturingtech.com\" ".data ++
          "target=\"_blank\" rel=\"noopener noreferrer\">Click</a>".data) := by
  constructor
  · intro s h t r hm
    exact subAnchors_match hm
  · decide

/-- C4 witness: the rewrite equation applied at a concrete matched anchor. -/
theorem sanitize_anchor_html_rewrite_witness :
    subAnchors "<a href=\"u\">t</a>".data =
      ablock (sanitizeUrlL "u".data) "t".data ++ subAnchors [] :=
  sanitize_anchor_html_rewrite.1 "<a href=\"u\">t</a>".data "u".data "t".data []
    (by decide)

theorem subAnchors_segments :
    ∀ (n : Nat) (s : List Char), s.length ≤ n → ∃ segs : List Seg,
      s = (segs.map segSrc).flatten ∧ subAnchors s = (segs.map segOut).flatten ∧
      ∀ seg ∈ segs, segMatches seg := by
  intro n
  induction n with
  | zero =>
    intro s hs
    have hnil : s = [] := List.eq_nil_of_length_eq_zero (Nat.le_zero.mp hs)
    subst hnil
    exact ⟨[], by simp, by simp [subAnchors_nil], by simp⟩
  | succ n ih =>
    intro s hs
    cases hm : matchAnchorAt s with
    | some p =>
      obtain ⟨h, t, r⟩ := p
      obtain ⟨a0, ws, c1, c2, c3, c4, att, ac, hdec, ha0, hwsne, hwsp, hc1, hc2, hc3, hc4,
        hh, hdqh, hat, hclt, hacl⟩ := matchAnchorAt_struct hm
      obtain ⟨segs, h1, h2, h3⟩ := ih r (by have := matchAnchorAt_length hm; omega)
      refine ⟨Seg.rew ('<' :: a0 :: (ws ++ c1 :: c2 :: c3 :: c4 :: '=' :: dq ::
        (h ++ dq :: (att ++ '>' :: (t ++ '<' :: '/' :: ac :: '>' :: []))))) h t :: segs,
        ?_, ?_, ?_⟩
      · rw [hdec]
        simp [segSrc, ← h1]
      · rw [subAnchors_match hm]
        simp [segOut, ← h2]
      · intro seg hseg
        rcases List.mem_cons.mp hseg with rfl | hseg'
        · intro m
          have hshape : ('<' :: a0 :: (ws ++ c1 :: c2 :: c3 :: c4 :: '=' :: dq ::
              (h ++ dq :: (att ++ '>' :: (t ++ '<' :: '/' :: ac :: '>' :: []))))) ++ m =
              '<' :: a0 :: (ws ++ c1 :: c2 :: c3 :: c4 :: '=' :: dq ::
              (h ++ dq :: (att ++ '>' :: (t ++ '<' :: '/' :: ac :: '>' :: m)))) := by
            simp
          show matchAnchorAt _ = _
          rw [hshape]
          exact matchAnchorAt_recomp a0 ws c1 c2 c3 c4 h att t m ac
            ha0 hwsne hwsp hc1 hc2 hc3 hc4 hh hdqh hat hclt hacl
        · exact h3 seg hseg'
    | none =>
      cases s with
      | nil => exact ⟨[], by simp, by simp [subAnchors_nil], by simp⟩
      | cons c s' =>
        obtain ⟨segs, h1, h2, h3⟩ := ih s' (by simp only [List.length_cons] at hs; omega)
        refine ⟨Seg.lit c :: segs, ?_, ?_, ?_⟩
        · simp [segSrc, ← h1]
        · rw [subAnchors_nomatch hm]
          simp [segOut, ← h2]
        · intro seg hseg
          rcases List.mem_cons.mp hseg with rfl | hseg'
          · trivial
          · exact h3 seg hseg'

/-- C10: the substitution decomposes any input into single characters passed
through verbatim and regions of the exact matched shape (href the first
attribute, double-quoted, nonempty) rewritten to the forced form; concretely
an anchor with a single-quoted href and an anchor whose href is not the first
attribute are returned character-for-character unchanged, and empty input is
returned as-is. -/
theorem sanitize_anchor_html_frame :
    (∀ s : List Char, ∃ segs : List Seg,
      s = (segs.map segSrc).flatten ∧ subAnchors s = (segs.map segOut).flatten ∧
      ∀ seg ∈ segs, segMatches seg) ∧
      sanitize_anchor_html ⟨"<a href=".data ++ sq :: "javascript:evil()".data ++
          sq :: ">Click</a>".data⟩ =
        ⟨"<a href=".data ++ sq :: "javascript:evil()".data ++ sq :: ">Click</a>".data⟩ ∧
      sanitize_anchor_html "<a class=\"x\" href=\"u-iotmanufacturingtech.com\">Click</a>" =
        "<a class=\"x\" href=\"u-iotmanufacturingtech.com\">Click</a>" ∧
      sanitize_anchor_html "" = "" := by
  refine ⟨fun s => subAnchors_segments s.length s (Nat.le_refl _), ?_, ?_, rfl⟩
  · decide
  · decide

/-- C10 witness: the frame theorem applied at its concrete empty-input
conjunct. -/
theorem sanitize_anchor_html_frame_witness : sanitize_anchor_html "" = "" :=
  sanitize_anchor_html_frame.2.2.2

theorem batches_flatten {batch : Nat} (hb : 0 < batch) :
    ∀ (fuel : Nat) (strs : List String), strs.length ≤ fuel →
      (batches batch fuel strs).flatten = strs := by
  intro fuel
  induction fuel with
  | zero =>
    intro strs hs
    have hnil : strs = [] := List.eq_nil_of_length_eq_zero (Nat.le_zero.mp hs)
    subst hnil
    cases batch with
    | zero => rfl
    | succ b => rfl
  | succ fuel ih =>
    intro strs hs
    cases batch with
    | zero => exact absurd hb (by simp)
    | succ b =>
      cases strs with
      | nil => rfl
      | cons x xs =>
        have hdrop : ((x :: xs).drop (b + 1)).length ≤ fuel := by
          simp only [List.length_drop, List.length_cons] at *
          omega
        calc (batches (b + 1) (fuel + 1) (x :: xs)).flatten
            = (x :: xs).take (b + 1) ++ (batches (b + 1) fuel ((x :: xs).drop (b + 1))).flatten :=
              rfl
          _ = (x :: xs).take (b + 1) ++ (x :: xs).drop (b + 1) := by rw [ih _ hdrop]
          _ = x :: xs := List.take_append_drop _ _

theorem batches_size_le (batch : Nat) :
    ∀ (fuel : Nat) (strs : List String) (b : List String),
      b ∈ batches batch fuel strs → b.length ≤ batch := by
  intro fuel
  induction fuel with
  | zero =>
    intro strs b hb
    have hz : batches batch 0 strs = [] := by cases strs <;> rfl
    rw [hz] at hb
    simp at hb
  | succ fuel ih =>
    intro strs b hb
    cases strs with
    | nil =>
      have hz : batches batch (fuel + 1) ([] : List String) = [] := rfl
      rw [hz] at hb
      simp at hb
    | cons x xs =>
      have hz : batches batch (fuel + 1) (x :: xs) =
          (x :: xs).take batch :: batches batch fuel ((x :: xs).drop batch) := rfl
      rw [hz] at hb
      rcases List.mem_cons.mp hb with rfl | hb'
      · exact List.length_take_le _ _
      · exact ih _ b hb'

theorem embed_many_pointwise (f : String → List ℚ) (strs : List String) :
    embed_many (fun xs => xs.map f) strs 32 = strs.map f := by
  rw [embed_many]
  have h1 : ((batches 32 strs.length strs).map (fun xs => xs.map f)).flatten =
      ((batches 32 strs.length strs).flatten).map f := by
    rw [List.map_flatten]
  rw [h1, batches_flatten (by omega) _ _ (Nat.le_refl _)]

theorem sumSq_nonneg_real (v : List ℝ) : 0 ≤ (v.map (fun x => x * x)).sum := by
  apply List.sum_nonneg
  intro x hx
  obtain ⟨y, _, rfl⟩ := List.mem_map.mp hx
  exact mul_self_nonneg y

theorem l2norm_embed_query {v : List ℝ} (hv : (v.map (fun x => x * x)).sum ≠ 0) :
    l2norm (embed_query v) = 1 := by
  have hS : 0 < (v.map (fun x => x * x)).sum :=
    lt_of_le_of_ne (sumSq_nonneg_real v) (Ne.symm hv)
  set S : ℝ := (v.map (fun x => x * x)).sum with hSdef
  have hsqrt : 0 < Real.sqrt S := Real.sqrt_pos.mpr hS
  rw [embed_query, normalizeL2, if_neg hv]
  rw [l2norm]
  have hmap : ((v.map (fun x => x / Real.sqrt S)).map (fun x => x * x)).sum =
      (v.map (fun x => (x * x) * (1 / (Real.sqrt S * Real.sqrt S)))).sum := by
    rw [List.map_map]
    congr 1
    apply List.map_congr_left
    intro x _
    simp only [Function.comp_apply]
    field_simp
  rw [hmap]
  have hfactor : (v.map (fun x => (x * x) * (1 / (Real.sqrt S * Real.sqrt S)))).sum =
      S * (1 / (Real.sqrt S * Real.sqrt S)) := by
    rw [hSdef]
    exact List.sum_map_mul_right _ _ _
  rw [hfactor, Real.mul_self_sqrt (le_of_lt hS)]
  rw [mul_one_div, div_self hv, Real.sqrt_one]

/-- C5 counterexample: `embed_many` does not normalize its rows.  With the
service returning the raw row `[3, 4]`, the returned matrix row has squared
L2 norm 25, not 1: normalization happens afterwards in the index-build step
(`faiss.normalize_L2(emb)`), outside `embed_many`. -/
theorem embed_many_not_normalized :
    embed_many (fun xs => xs.map (fun _ => [(3 : ℚ), 4])) ["a"] 32 = [[(3 : ℚ), 4]] ∧
      sumSq [(3 : ℚ), 4] = 25 := by
  constructor
  · rfl
  · norm_num [sumSq]

/-- C5 (amended): `embed_many` slices its input into batches of at most 32
and returns exactly one row per input in input order — the service's raw,
unnormalized rows; `embed_query` L2-normalizes the service's vector and the
result has L2 norm 1 whenever that vector is nonzero. -/
theorem embedder_spec :
    (∀ (f : String → List ℚ) (strs : List String),
      embed_many (fun xs => xs.map f) strs 32 = strs.map f) ∧
      (∀ (strs : List String) (b : List String),
        b ∈ batches 32 strs.length strs → b.length ≤ 32) ∧
      (∀ v : List ℝ, (v.map (fun x => x * x)).sum ≠ 0 → l2norm (embed_query v) = 1) :=
  ⟨embed_many_pointwise, fun strs b hb => batches_size_le 32 strs.length strs b hb,
    fun _ hv => l2norm_embed_query hv⟩

/-- C5 witness: the normalization statement applied at the concrete service
vector `[3, 4]`, and the batching statement at a concrete input list. -/
theorem embedder_spec_witness :
    l2norm (embed_query [(3 : ℝ), 4]) = 1 ∧
      embed_many (fun xs => xs.map (fun s => [(s.length : ℚ)])) ["a", "bc"] 32 =
        [[(1 : ℚ)], [(2 : ℚ)]] := by
  constructor
  · exact embedder_spec.2.2 [(3 : ℝ), 4] (by norm_num)
  · rw [embedder_spec.1 (fun s => [(s.length : ℚ)]) ["a", "bc"]]
    rfl

theorem filterMap_if_eq_filter {α β : Type} (P : α → Prop) [DecidablePred P]
    (g : α → Option β) :
    ∀ l : List α, (l.filterMap (fun i => if P i then g i else none)) =
      (l.filter (fun i => decide (P i))).filterMap g := by
  intro l
  induction l with
  | nil => rfl
  | cons x xs ih =>
    by_cases hx : P x
    · simp only [List.filterMap_cons, List.filter_cons, hx, if_pos, decide_eq_true_eq,
        if_true, ih]
    · simp only [List.filterMap_cons, List.filter_cons, hx, if_neg, decide_eq_true_eq,
        if_false, ih]

theorem nodup_bounded_length {l : List Nat} {n : Nat} (hnd : l.Nodup)
    (hb : ∀ x ∈ l, x < n) : l.length ≤ n := by
  have h1 : l.toFinset ⊆ Finset.range n := fun x hx =>
    Finset.mem_range.mpr (hb x (List.mem_toFinset.mp hx))
  have h2 := Finset.card_le_card h1
  rw [List.toFinset_card_of_nodup hnd] at h2
  simpa using h2

theorem retrieve_eq_withScores :
    ∀ (searchRes : List (ℚ × Int)) (meta : List MetaRec),
      retrieve searchRes meta = (retrieveWithScores searchRes meta).map Prod.snd := by
  intro l meta
  induction l with
  | nil => rfl
  | cons p l ih =>
    by_cases hp : 0 ≤ p.2 ∧ p.2 < (meta.length : Int)
    · have hlt : p.2.toNat < meta.length := by
        obtain ⟨h0, h1⟩ := hp
        omega
      have hget : meta[p.2.toNat]? = some meta[p.2.toNat] := List.getElem?_eq_getElem hlt
      simp only [retrieve, retrieveWithScores, List.map_cons, List.filterMap_cons, hp,
        if_pos, hget, Option.map_some]
      simp only [retrieve, retrieveWithScores] at ih
      simp [ih]
    · simp only [retrieve, retrieveWithScores, List.map_cons, List.filterMap_cons, hp,
        if_neg, if_false]
      simp only [retrieve, retrieveWithScores] at ih
      simp [hp, ih]

theorem retrieveWithScores_fst {searchRes : List (ℚ × Int)} {meta : List MetaRec}
    {b : ℚ × MetaRec} (hb : b ∈ retrieveWithScores searchRes meta) :
    ∃ a ∈ searchRes, b.1 = a.1 := by
  obtain ⟨a, ha, hfa⟩ := List.mem_filterMap.mp hb
  by_cases hp : 0 ≤ a.2 ∧ a.2 < (meta.length : Int)
  · rw [if_pos hp] at hfa
    obtain ⟨r, _, hr⟩ := Option.map_eq_some'.mp hfa
    exact ⟨a, ha, by rw [← hr]⟩
  · rw [if_neg hp] at hfa
    simp at hfa

theorem retrieveWithScores_sorted {searchRes : List (ℚ × Int)} {meta : List MetaRec}
    (hs : List.Pairwise (fun a b : ℚ × Int => b.1 ≤ a.1) searchRes) :
    List.Pairwise (fun a b : ℚ × MetaRec => b.1 ≤ a.1)
      (retrieveWithScores searchRes meta) := by
  induction searchRes with
  | nil => exact List.Pairwise.nil
  | cons p l ih =>
    obtain ⟨hhead, htail⟩ := List.pairwise_cons.mp hs
    cases hf : (if 0 ≤ p.2 ∧ p.2 < (meta.length : Int) then
        (meta[p.2.toNat]?).map (fun r => (p.1, r)) else none) with
    | none =>
      rw [retrieveWithScores, List.filterMap_cons, hf]
      exact ih htail
    | some q =>
      rw [retrieveWithScores, List.filterMap_cons, hf]
      refine List.pairwise_cons.mpr ⟨?_, ih htail⟩
      intro b hb
      obtain ⟨a, ha, hba⟩ := retrieveWithScores_fst hb
      have hq1 : q.1 = p.1 := by
        by_cases hp : 0 ≤ p.2 ∧ p.2 < (meta.length : Int)
        · rw [if_pos hp] at hf
          obtain ⟨r, _, hr⟩ := Option.map_eq_some'.mp hf
          rw [← hr]
        · rw [if_neg hp] at hf
          simp at hf
      rw [hba, hq1]
      exact hhead a ha

/-- C7: with the faiss contract as hypotheses — at most `k` hits, distinct
valid row labels, hits ordered by non-increasing score — `retrieve` returns
at most `min k len(meta)` records; every returned record is `meta[i]` for an
in-bounds hit index `i` (out-of-range hits are dropped, never faulting); and
the retained records are in non-increasing score order. -/
theorem retrieve_spec (searchRes : List (ℚ × Int)) (meta : List MetaRec) (k : Nat)
    (hk : searchRes.length ≤ k)
    (hnd : ((searchRes.map Prod.snd).filter (fun i => decide (0 ≤ i))).Nodup)
    (hs : List.Pairwise (fun a b : ℚ × Int => b.1 ≤ a.1) searchRes) :
    (retrieve searchRes meta).length ≤ min k meta.length ∧
      (∀ rec ∈ retrieve searchRes meta, ∃ i ∈ searchRes.map Prod.snd,
        0 ≤ i ∧ i < (meta.length : Int) ∧ meta[i.toNat]? = some rec) ∧
      retrieve searchRes meta = (retrieveWithScores searchRes meta).map Prod.snd ∧
      List.Pairwise (fun a b : ℚ × MetaRec => b.1 ≤ a.1)
        (retrieveWithScores searchRes meta) := by
  refine ⟨?_, ?_, retrieve_eq_withScores searchRes meta, retrieveWithScores_sorted hs⟩
  · rw [Nat.le_min]
    constructor
    · calc (retrieve searchRes meta).length
          ≤ (searchRes.map Prod.snd).length := List.length_filterMap_le _ _
        _ = searchRes.length := List.length_map _ _
        _ ≤ k := hk
    · rw [retrieve, filterMap_if_eq_filter]
      set K := (searchRes.map Prod.snd).filter
        (fun i => decide (0 ≤ i ∧ i < (meta.length : Int))) with hK
      have hKnd : K.Nodup := by
        have hsubl : K.Sublist ((searchRes.map Prod.snd).filter (fun i => decide (0 ≤ i))) := by
          rw [hK]
          have heq : ((searchRes.map Prod.snd).filter (fun i => decide (0 ≤ i))).filter
              (fun i => decide (0 ≤ i ∧ i < (meta.length : Int))) =
              (searchRes.map Prod.snd).filter
                (fun i => decide (0 ≤ i ∧ i < (meta.length : Int))) := by
            rw [List.filter_filter]
            apply List.filter_congr
            intro a _
            by_cases h0 : (0 : Int) ≤ a <;> by_cases h1 : a < (meta.length : Int) <;>
              simp [h0, h1]
          rw [← heq]
          exact List.filter_sublist _
        exact hsubl.nodup hnd
      have hKbound : ∀ x ∈ K.map Int.toNat, x < meta.length := by
        intro x hx
        obtain ⟨i, hi, rfl⟩ := List.mem_map.mp hx
        have := List.of_mem_filter hi
        simp only [decide_eq_true_eq] at this
        omega
      have hKmapnd : (K.map Int.toNat).Nodup := by
        refine hKnd.map_on ?_
        intro x hx y hy hxy
        have hx' := List.of_mem_filter hx
        have hy' := List.of_mem_filter hy
        simp only [decide_eq_true_eq] at hx' hy'
        omega
      calc (K.filterMap (fun i => meta[i.toNat]?)).length
          ≤ K.length := List.length_filterMap_le _ _
        _ = (K.map Int.toNat).length := (List.length_map _ _).symm
        _ ≤ meta.length := nodup_bounded_length hKmapnd hKbound
  · intro rec hrec
    obtain ⟨i, hi, hfi⟩ := List.mem_filterMap.mp hrec
    by_cases hp : 0 ≤ i ∧ i < (meta.length : Int)
    · rw [if_pos hp] at hfi
      exact ⟨i, hi, hp.1, hp.2, hfi⟩
    · rw [if_neg hp] at hfi
      simp at hfi

/-- C7 witness: the contract applied at a concrete search result containing a
faiss `-1` padding hit and an out-of-range hit, both dropped. -/
theorem retrieve_spec_witness :
    (retrieve [((9 : ℚ), (1 : Int)), ((5 : ℚ), (7 : Int)), ((1 : ℚ), (-1 : Int))]
        [⟨"u0", "t0", "x0"⟩, ⟨"u1", "t1", "x1"⟩]).length ≤ min 3 2 := by
  have h := retrieve_spec
    [((9 : ℚ), (1 : Int)), ((5 : ℚ), (7 : Int)), ((1 : ℚ), (-1 : Int))]
    [⟨"u0", "t0", "x0"⟩, ⟨"u1", "t1", "x1"⟩] 3
    (by decide) (by decide) (by norm_num)
  exact h.1

/-- C8: a query whose trimmed, lower-cased form is one of the four fixed
greetings returns the static help message for every generation and retrieval
collaborator: neither service is consulted, no retrieval runs, and the
result is terminal. -/
theorem ask_gemini_greeting (gen : String → Except String GenResp)
    (retr : String → Except String (List MetaRec)) (query : String)
    (chunks : List MetaRec ⊕ List String)
    (hq : strLower (pyStrip query) = "hi" ∨ strLower (pyStrip query) = "hello" ∨
      strLower (pyStrip query) = "hey" ∨ strLower (pyStrip query) = "halo") :
    ask_gemini gen retr query chunks = Except.ok greetingMsg := by
  simp only [ask_gemini]
  rw [if_pos hq]

/-- C8 witness: the greeting theorem applied at `"hi"` with collaborators
that fail if ever invoked. -/
theorem ask_gemini_greeting_witness :
    ask_gemini (fun _ => Except.error "generation invoked")
      (fun _ => Except.error "retrieval invoked") "hi" (.inl []) =
      Except.ok greetingMsg :=
  ask_gemini_greeting _ _ "hi" _ (by decide)

/-- C3 counterexample: for the menu shortcut `"1"`, `ask_gemini` itself calls
the retrieval pipeline (line 166), and that call sits outside the try/except
block: an exception raised by the embedding call there propagates raw to the
caller instead of becoming the fallback message. -/
theorem ask_gemini_retrieval_exception_propagates :
    ask_gemini (fun _ => Except.error "generation down")
      (fun _ => Except.error "embedding down") "1" (.inl []) =
      Except.error "embedding down" := rfl

/-- C3 (amended): for every non-greeting, non-shortcut query whose assembled
context is nonempty, an exception raised by the generation call is caught
and converted into the static apology message, which carries the sanitized
contact link; it never propagates to the caller.  Exceptions raised by the
shortcut-path retrieval (embedding) call, by contrast, do propagate. -/
theorem ask_gemini_generation_fallback (err : String)
    (retr : String → Except String (List MetaRec)) (query : String)
    (chunks : List MetaRec ⊕ List String)
    (hng : ¬ (strLower (pyStrip query) = "hi" ∨ strLower (pyStrip query) = "hello" ∨
      strLower (pyStrip query) = "hey" ∨ strLower (pyStrip query) = "halo"))
    (hns : mappedPrompts (strLower (pyStrip query)) = none)
    (hctx : ¬ pyStrip (format_context (wrapChunks chunks)) = "") :
    ask_gemini (fun _ => Except.error err) retr query chunks = Except.ok apologyMsg ∧
      containsL CONTACT_US_URL.data apologyMsg.data = true := by
  constructor
  · simp only [ask_gemini]
    rw [if_neg hng, hns]
    simp only [askCore]
    rw [if_neg hctx]
  · decide

/-- C3 witness: the fallback theorem applied at a concrete query and a
concrete nonempty retrieved chunk, with a failing generation service. -/
theorem ask_gemini_generation_fallback_witness :
    ask_gemini (fun _ => Except.error "boom") (fun _ => Except.error "unused")
      "what is rfid?" (.inl [⟨"", "", "RFID overview"⟩]) = Except.ok apologyMsg := by
  have h := ask_gemini_generation_fallback "boom" (fun _ => Except.error "unused")
    "what is rfid?" (.inl [⟨"", "", "RFID overview"⟩]) (by decide) (by decide) (by decide)
  exact h.1

end ChatQuery
